import Mathlib

/-!
Verification of the generic binary min-heap of include/linux/min_heap.h.

The backing buffer (`void *data` with capacity `size`) is modelled as a
`List α` whose length is the capacity; `nr` counts the live elements.  The
caller-supplied callbacks are a boolean order `less` and the exchange of two
buffer slots (`listSwap`, modelling `swp`).  All machine integers involved
(`nr`, `size`, positions) are non-negative throughout the code, so they are
modelled as `Nat`.

Each C loop is translated with an explicit structural fuel argument so that
every definition is executable by the kernel; the fuel bounds are chosen so
that the fuel never runs out on the inputs the heap operations produce
(the specification lemmas below are proved under exactly those conditions).
-/

set_option linter.unusedSectionVars false

namespace MinHeapVerif

/-- Heap state mirroring `struct __min_heap`: buffer contents, live count
`nr`, capacity `size`.  The C struct stores a pointer to a caller-owned
buffer; here the buffer contents are carried directly. -/
structure MinHeap (α : Type) where
  data : List α
  nr : Nat
  size : Nat
deriving DecidableEq

/-- Parent index in the implicit binary tree: `(i - 1) / 2` (this is also the
value C computes at `i = 0`, where `(0 - 1) / 2` truncates to `0`). -/
def hpar (i : Nat) : Nat := (i - 1) / 2

/-- Sibling index: `2a+1 ↦ 2a+2` and `2a+2 ↦ 2a+1`. -/
def sib (i : Nat) : Nat := if i % 2 = 1 then i + 1 else i - 1

/-- Well-formedness of a heap state: the buffer has exactly `size` slots and
at most that many are live. -/
def wfH {α : Type} (h : MinHeap α) : Prop :=
  h.data.length = h.size ∧ h.nr ≤ h.size

instance {α : Type} [DecidableEq α] (h : MinHeap α) : Decidable (wfH h) := by
  unfold wfH; infer_instance

variable {α : Type} [Inhabited α]

/-- The `swp` callback applied to slots `a` and `b` of the buffer. -/
def listSwap (data : List α) (a b : Nat) : List α :=
  (data.set a (data.getD b default)).set b (data.getD a default)

/-- First loop of `__min_heapify`: follow the path of smaller children from
`i` towards the leaves, one `less` call per step, until node `i` no longer
has two children (`i*2+2 >= nr`).  `i` strictly increases and stays `< nr`,
so fuel `nr` suffices. -/
def dPathGo (less : α → α → Bool) (data : List α) (nr : Nat) : Nat → Nat → Nat
  | 0, i => i
  | fuel + 1, i =>
    if nr ≤ i * 2 + 2 then i
    else
      dPathGo less data nr fuel
        (if less (data.getD (i * 2 + 1) default) (data.getD (i * 2 + 2) default) then
          i * 2 + 1
        else i * 2 + 2)

/-- The sift-down path endpoint computed by the first loop of
`__min_heapify`, started at `pos`. -/
def dPath (less : α → α → Bool) (data : List α) (nr pos : Nat) : Nat :=
  dPathGo less data nr nr pos

/-- Second loop of `__min_heapify`:
`while (i != pos && less(root, data + i * elem_size)) i = (i - 1) / 2;`.
`i` strictly decreases while positive, so fuel `i + 1` suffices whenever
`pos` is an ancestor of `i`; if `i` reaches `0` with `pos ≠ 0` the C loop
would spin at `0` forever (C computes `(0-1)/2 = 0`), a situation no call
made by the heap operations can produce, and the fuel then runs out. -/
def backtrackGo (less : α → α → Bool) (root : α) (data : List α) (pos : Nat) :
    Nat → Nat → Nat
  | 0, i => i
  | fuel + 1, i =>
    if i ≠ pos ∧ less root (data.getD i default) = true then
      backtrackGo less root data pos fuel (hpar i)
    else i

/-- The final resting index computed by the second loop of `__min_heapify`,
started at `i`. -/
def backtrack (less : α → α → Bool) (root : α) (data : List α) (pos i : Nat) : Nat :=
  backtrackGo less root data pos (i + 1) i

/-- Third loop of `__min_heapify`:
`j = i; while (i != pos) { i = (i - 1) / 2; swp(data + i * elem_size, data + j * elem_size); }`.
Same fuel discipline as the backtrack loop. -/
def shiftGo (pos j : Nat) : Nat → Nat → List α → List α
  | 0, _, data => data
  | fuel + 1, i, data =>
    if i = pos then data
    else shiftGo pos j fuel (hpar i) (listSwap data (hpar i) j)

/-- The buffer produced by the third loop of `__min_heapify`, started at `i`
with fixed cycling slot `j`. -/
def shiftLoop (pos j i : Nat) (data : List α) : List α :=
  shiftGo pos j (i + 1) i data

/-- `__min_heapify`: sift the element at `pos` down the heap.  `root` is a
pointer to slot `pos`, whose contents do not change before the third loop,
so it is snapshotted here. -/
def min_heapify (less : α → α → Bool) (data : List α) (nr pos : Nat) : List α :=
  let root := data.getD pos default
  let i0 := dPath less data nr pos
  let i1 := if i0 * 2 + 2 = nr then i0 * 2 + 1 else i0
  let f := backtrack less root data pos i1
  shiftLoop pos f f data

/-- The loop of `__min_heapify_all` counted down:
`heapifyAllGo … (k+1)` runs `__min_heapify` at `k` and recurses, so
`heapifyAllGo … (nr / 2)` processes `nr/2 - 1, …, 0` exactly as
`for (i = heap->nr / 2 - 1; i >= 0; i--)` does (for `nr ≤ 1` the C index
starts negative and the loop body never runs, matching fuel `nr / 2 = 0`). -/
def heapifyAllGo (less : α → α → Bool) (data : List α) (nr : Nat) : Nat → List α
  | 0 => data
  | k + 1 => heapifyAllGo less (min_heapify less data nr k) nr k

/-- `__min_heapify_all`: Floyd heap construction. -/
def min_heapify_all (less : α → α → Bool) (data : List α) (nr : Nat) : List α :=
  heapifyAllGo less data nr (nr / 2)

/-- `__min_heap_pop`.  The C guard `WARN_ONCE(heap->nr <= 0, …)` returns with
no mutation when the heap is empty (`nr`, an `int`, is never negative in the
model); otherwise the last live element is copied into slot 0, `nr` is
decremented, and the root is sifted down.  The `WARN_ONCE` diagnostic is a
side effect outside the state model. -/
def min_heap_pop (less : α → α → Bool) (h : MinHeap α) : MinHeap α :=
  if h.nr = 0 then h
  else
    { data := min_heapify less (h.data.set 0 (h.data.getD (h.nr - 1) default)) (h.nr - 1) 0,
      nr := h.nr - 1,
      size := h.size }

/-- `__min_heap_pop_push`: overwrite slot 0 with `element`, then sift down. -/
def min_heap_pop_push (less : α → α → Bool) (h : MinHeap α) (e : α) : MinHeap α :=
  { h with data := min_heapify less (h.data.set 0 e) h.nr 0 }

/-- Sift-up loop of `__min_heap_push`:
`for (; pos > 0; pos = (pos - 1) / 2) { if (less(parent, child)) break; swp(parent, child); }`.
`pos` strictly decreases, so fuel `pos + 1` suffices. -/
def siftUpGo (less : α → α → Bool) : Nat → Nat → List α → List α
  | 0, _, data => data
  | fuel + 1, pos, data =>
    if pos = 0 then data
    else if less (data.getD (hpar pos) default) (data.getD pos default) then data
    else siftUpGo less fuel (hpar pos) (listSwap data (hpar pos) pos)

/-- `__min_heap_push`.  The C guard `WARN_ONCE(heap->nr >= heap->size, …)`
returns with no mutation when the heap is full; otherwise the element is
placed at index `nr`, `nr` is incremented, and the new entry is sifted up. -/
def min_heap_push (less : α → α → Bool) (h : MinHeap α) (e : α) : MinHeap α :=
  if h.size ≤ h.nr then h
  else
    { data := siftUpGo less (h.nr + 1) h.nr (h.data.set h.nr e),
      nr := h.nr + 1,
      size := h.size }

/-- Instrumented first loop of `__min_heapify`: additionally counts the
`less` calls it makes (exactly one per iteration). -/
def dPathGoC (less : α → α → Bool) (data : List α) (nr : Nat) :
    Nat → Nat → Nat × Nat
  | 0, i => (i, 0)
  | fuel + 1, i =>
    if nr ≤ i * 2 + 2 then (i, 0)
    else
      let r := dPathGoC less data nr fuel
        (if less (data.getD (i * 2 + 1) default) (data.getD (i * 2 + 2) default) then
          i * 2 + 1
        else i * 2 + 2)
      (r.1, r.2 + 1)

/-- Instrumented sift-down path: endpoint together with the number of `less`
calls the descent loop made. -/
def dPathC (less : α → α → Bool) (data : List α) (nr pos : Nat) : Nat × Nat :=
  dPathGoC less data nr nr pos

/-- Instrumented second loop of `__min_heapify`: final index together with
the number of `less` calls, honouring the short-circuit of
`i != pos && less(…)` (no `less` call when `i = pos`). -/
def backtrackGoC (less : α → α → Bool) (root : α) (data : List α) (pos : Nat) :
    Nat → Nat → Nat × Nat
  | 0, i => (i, 0)
  | fuel + 1, i =>
    if i = pos then (i, 0)
    else if less root (data.getD i default) then
      let r := backtrackGoC less root data pos fuel (hpar i)
      (r.1, r.2 + 1)
    else (i, 1)

/-- Instrumented third loop of `__min_heapify`: resulting buffer together
with the number of `swp` calls (exactly one per iteration). -/
def shiftGoC (pos j : Nat) : Nat → Nat → List α → List α × Nat
  | 0, _, data => (data, 0)
  | fuel + 1, i, data =>
    if i = pos then (data, 0)
    else
      let r := shiftGoC pos j fuel (hpar i) (listSwap data (hpar i) j)
      (r.1, r.2 + 1)

/-- Instrumented `__min_heapify`: resulting buffer together with the number
of `less` calls of the descent loop, the number of `less` calls of the
backtrack loop, and the number of `swp` calls of the shift loop.  (In the C
code the first two loops contain no `swp` call and the third contains no
`less` call.) -/
def min_heapifyC (less : α → α → Bool) (data : List α) (nr pos : Nat) :
    List α × Nat × Nat × Nat :=
  let root := data.getD pos default
  let d := dPathC less data nr pos
  let i1 := if d.1 * 2 + 2 = nr then d.1 * 2 + 1 else d.1
  let b := backtrackGoC less root data pos (i1 + 1) i1
  let s := shiftGoC pos b.1 (b.1 + 1) b.1 data
  (s.1, d.2, b.2, s.2)

/-- The index reached by the descent of `__min_heapify` after the special
case for the last leaf with no sibling (`if (i * 2 + 2 == heap->nr) i = i * 2 + 1`). -/
def heapifySpecialStep (less : α → α → Bool) (data : List α) (nr pos : Nat) : Nat :=
  let i0 := dPath less data nr pos
  if i0 * 2 + 2 = nr then i0 * 2 + 1 else i0

/-- The final resting index of `__min_heapify`: the result of the backtrack
loop started from the descent endpoint. -/
def heapifyDest (less : α → α → Bool) (data : List α) (nr pos : Nat) : Nat :=
  backtrack less (data.getD pos default) data pos (heapifySpecialStep less data nr pos)

/-- The heap invariant exactly as the specification states it: for every
index `i` in `[0, nr)` and every child index `c ∈ {2i+1, 2i+2}` with
`c < nr`, the child does not compare strictly less than its parent. -/
def heapProp (less : α → α → Bool) (data : List α) (nr : Nat) : Prop :=
  ∀ i, i < nr → ∀ c, c < nr → (c = 2 * i + 1 ∨ c = 2 * i + 2) →
    less (data.getD c default) (data.getD i default) = false

instance (less : α → α → Bool) (data : List α) (nr : Nat) :
    Decidable (heapProp less data nr) := by
  unfold heapProp; infer_instance

/-- `Anc p i`: `p` is an ancestor of `i` (or `i` itself) in the implicit
binary tree. -/
inductive Anc (p : Nat) : Nat → Prop where
  | refl : Anc p p
  | left {i : Nat} : Anc p i → Anc p (2 * i + 1)
  | right {i : Nat} : Anc p i → Anc p (2 * i + 2)

/-- The heap property of the subtree rooted at `p`, child-pair form: every
live pair whose parent lies in the subtree rooted at `p` is ordered. -/
def subHeap (less : α → α → Bool) (data : List α) (nr p : Nat) : Prop :=
  ∀ c, 0 < c → c < nr → Anc p (hpar c) →
    less (data.getD c default) (data.getD (hpar c) default) = false

/-- The live contents of a heap, as a multiset. -/
def liveM (h : MinHeap α) : Multiset α :=
  (h.data.take h.nr : List α)

/-- The mutating operations a caller can invoke. -/
inductive HeapOp (α : Type) where
  | push : α → HeapOp α
  | pop : HeapOp α
  | pop_push : α → HeapOp α
  | heapify_all : HeapOp α
deriving DecidableEq

/-- `min_heapify` as a state operation (the `min_heapify` macro applied to a
whole heap). -/
def min_heapify_op (less : α → α → Bool) (h : MinHeap α) (pos : Nat) : MinHeap α :=
  { h with data := min_heapify less h.data h.nr pos }

/-- `min_heapify_all` as a state operation. -/
def min_heapify_all_op (less : α → α → Bool) (h : MinHeap α) : MinHeap α :=
  { h with data := min_heapify_all less h.data h.nr }

/-- Apply one operation to a heap state. -/
def applyOp (less : α → α → Bool) (h : MinHeap α) : HeapOp α → MinHeap α
  | .push e => min_heap_push less h e
  | .pop => min_heap_pop less h
  | .pop_push e => min_heap_pop_push less h e
  | .heapify_all => min_heapify_all_op less h

/-- Validity of one operation in a given state, per the specification:
`push` needs `nr < size`, `pop` and `pop_push` need `nr > 0`,
`heapify_all` is valid on any arrangement. -/
def validOp {α : Type} (h : MinHeap α) : HeapOp α → Bool
  | .push _ => decide (h.nr < h.size)
  | .pop => decide (0 < h.nr)
  | .pop_push _ => decide (0 < h.nr)
  | .heapify_all => true

/-- Validity of a whole operation sequence, each step checked in the state
it is applied to. -/
def seqValid (less : α → α → Bool) (h : MinHeap α) : List (HeapOp α) → Bool
  | [] => true
  | op :: rest => validOp h op && seqValid less (applyOp less h op) rest

/-- Apply a sequence of operations from left to right. -/
def applySeq (less : α → α → Bool) (h : MinHeap α) (ops : List (HeapOp α)) : MinHeap α :=
  ops.foldl (applyOp less) h

/-- Read index 0, pop, repeat: the `n`-round extraction sequence. -/
def extractSeq (less : α → α → Bool) (h : MinHeap α) : Nat → List α
  | 0 => []
  | k + 1 => h.data.getD 0 default :: extractSeq less (min_heap_pop less h) k

/-- Push a list of elements one at a time. -/
def pushList (less : α → α → Bool) (h : MinHeap α) (es : List α) : MinHeap α :=
  es.foldl (min_heap_push less) h

/-- Tree depth of an index: number of parent steps down to 0 (fuel `i + 1`
suffices since the index strictly decreases). -/
def depthGo : Nat → Nat → Nat
  | 0, _ => 0
  | fuel + 1, i => if i = 0 then 0 else depthGo fuel ((i - 1) / 2) + 1

/-- Tree depth of an index. -/
def depth (i : Nat) : Nat := depthGo (i + 1) i

/-- The concrete strict order on `Int` used by the witnesses. -/
def intLess (a b : Int) : Bool := decide (a < b)

/-! ### The concrete order used by the witnesses -/

theorem intLess_irrefl (a : Int) : intLess a a = false := by
  simp [intLess]

theorem intLess_trans (a b c : Int) (h1 : intLess a b = true) (h2 : intLess b c = true) :
    intLess a c = true := by
  simp only [intLess, decide_eq_true_eq] at *; omega

theorem intLess_negtrans (a b c : Int) (h1 : intLess a b = false) (h2 : intLess b c = false) :
    intLess a c = false := by
  simp only [intLess, decide_eq_false_iff_not] at *; omega

theorem intLess_conn (a b : Int) (h1 : intLess a b = false) (h2 : intLess b a = false) :
    a = b := by
  simp only [intLess, decide_eq_false_iff_not] at *; omega

/-! ### Derived facts about a strict weak order given as a boolean predicate -/

theorem less_asymm {α : Type} (less : α → α → Bool)
    (hirr : ∀ a, less a a = false)
    (htr : ∀ a b c, less a b = true → less b c = true → less a c = true)
    {a b : α} (h : less a b = true) : less b a = false := by
  cases hba : less b a
  · rfl
  · have := htr a b a h hba
    rw [hirr a] at this
    exact this.symm

/-! ### Index arithmetic of the implicit binary tree -/

theorem hpar_left (i : Nat) : hpar (2 * i + 1) = i := by
  unfold hpar; omega

theorem hpar_right (i : Nat) : hpar (2 * i + 2) = i := by
  unfold hpar; omega

theorem child_of_pos {c : Nat} (hc : 0 < c) : c = 2 * hpar c + 1 ∨ c = 2 * hpar c + 2 := by
  unfold hpar; omega

theorem hpar_lt {c : Nat} (hc : 0 < c) : hpar c < c := by
  unfold hpar; omega

theorem hpar_le (c : Nat) : hpar c ≤ c := by
  unfold hpar; omega

theorem sib_left (i : Nat) : sib (2 * i + 1) = 2 * i + 2 := by
  unfold sib; rw [if_pos (by omega)]

theorem sib_right (i : Nat) : sib (2 * i + 2) = 2 * i + 1 := by
  unfold sib; rw [if_neg (by omega)]; omega

theorem Anc.le {p i : Nat} (h : Anc p i) : p ≤ i := by
  induction h with
  | refl => exact Nat.le_refl _
  | left _ ih => omega
  | right _ ih => omega

theorem Anc.trans {a b c : Nat} (hab : Anc a b) (hbc : Anc b c) : Anc a c := by
  induction hbc with
  | refl => exact hab
  | left _ ih => exact .left ih
  | right _ ih => exact .right ih

theorem Anc.antisymm {a b : Nat} (hab : Anc a b) (hba : Anc b a) : a = b :=
  Nat.le_antisymm hab.le hba.le

theorem Anc.parentStep {p i : Nat} (h : Anc p i) (hne : i ≠ p) : Anc p (hpar i) := by
  cases h with
  | refl => exact absurd rfl hne
  | left h => rw [hpar_left]; exact h
  | right h => rw [hpar_right]; exact h

theorem Anc.pos_of_ne {p i : Nat} (h : Anc p i) (hne : i ≠ p) : 0 < i := by
  cases h with
  | refl => exact absurd rfl hne
  | left _ => omega
  | right _ => omega

theorem Anc.lt_of_ne {p i : Nat} (h : Anc p i) (hne : i ≠ p) : p < i := by
  have h1 := (h.parentStep hne).le
  have h2 := h.pos_of_ne hne
  have := hpar_lt h2
  omega

theorem anc_zero (i : Nat) : Anc 0 i := by
  induction i using Nat.strong_induction_on with
  | _ i ih =>
    rcases Nat.eq_zero_or_pos i with h | h
    · subst h; exact .refl
    · rcases child_of_pos h with hc | hc
      · rw [hc]; exact .left (ih _ (hpar_lt h))
      · rw [hc]; exact .right (ih _ (hpar_lt h))

theorem Anc.ofParent {p c : Nat} (h : Anc p (hpar c)) (hc : 0 < c) : Anc p c := by
  rcases child_of_pos hc with e | e
  · rw [e]; exact .left h
  · rw [e]; exact .right h

theorem Anc.firstStep {p c : Nat} (h : Anc p c) :
    c ≠ p → Anc (2 * p + 1) c ∨ Anc (2 * p + 2) c := by
  induction h with
  | refl => intro hne; exact absurd rfl hne
  | @left x h ih =>
    intro _
    by_cases hx : x = p
    · subst hx; exact Or.inl .refl
    · rcases ih hx with h1 | h1
      · exact Or.inl (.left h1)
      · exact Or.inr (.left h1)
  | @right x h ih =>
    intro _
    by_cases hx : x = p
    · subst hx; exact Or.inr .refl
    · rcases ih hx with h1 | h1
      · exact Or.inl (.right h1)
      · exact Or.inr (.right h1)

theorem Anc.chain {a x : Nat} (hax : Anc a x) : ∀ {b : Nat}, Anc b x → Anc a b ∨ Anc b a := by
  induction hax with
  | refl => intro b hbx; exact Or.inr hbx
  | @left y h ih =>
    intro b hbx
    generalize hy : 2 * y + 1 = z at hbx
    cases hbx with
    | refl => exact Or.inl (hy ▸ Anc.left h)
    | @left w h2 =>
      have hw : w = y := by omega
      subst hw
      exact ih h2
    | @right w h2 => omega
  | @right y h ih =>
    intro b hbx
    generalize hy : 2 * y + 2 = z at hbx
    cases hbx with
    | refl => exact Or.inl (hy ▸ Anc.right h)
    | @left w h2 => omega
    | @right w h2 =>
      have hw : w = y := by omega
      subst hw
      exact ih h2

theorem Anc.stepToward {x f : Nat} (h : Anc x f) :
    x ≠ f → ∃ c, (c = 2 * x + 1 ∨ c = 2 * x + 2) ∧ Anc c f := by
  induction h with
  | refl => intro hne; exact absurd rfl hne
  | @left y h ih =>
    intro _
    by_cases hxy : x = y
    · subst hxy; exact ⟨2 * x + 1, Or.inl rfl, .refl⟩
    · obtain ⟨c, hc, hcf⟩ := ih hxy
      exact ⟨c, hc, .left hcf⟩
  | @right y h ih =>
    intro _
    by_cases hxy : x = y
    · subst hxy; exact ⟨2 * x + 2, Or.inr rfl, .refl⟩
    · obtain ⟨c, hc, hcf⟩ := ih hxy
      exact ⟨c, hc, .right hcf⟩

theorem Anc.child_left_cases {b y : Nat} (h : Anc b (2 * y + 1)) :
    b = 2 * y + 1 ∨ Anc b y := by
  generalize hz : 2 * y + 1 = z at h
  cases h with
  | refl => exact Or.inl (by omega)
  | @left w h2 =>
    have : w = y := by omega
    subst this; exact Or.inr h2
  | @right w h2 => omega

/-- Two distinct children of the same node are not ancestors of one another. -/
theorem Anc.sib_not {p c b : Nat} (hc : c = 2 * p + 1 ∨ c = 2 * p + 2)
    (hb : b = 2 * p + 1 ∨ b = 2 * p + 2) (hne : c ≠ b) : ¬ Anc c b := by
  intro h
  have h1 := (h.parentStep (Ne.symm hne)).le
  have hbp : hpar b = p := by
    rcases hb with e | e <;> rw [e]
    · exact hpar_left p
    · exact hpar_right p
  rw [hbp] at h1
  omega

/-! ### Buffer lemmas -/

section Buffer

variable {α : Type} [Inhabited α]

theorem getD_set (l : List α) (i : Nat) (x : α) (n : Nat) :
    (l.set i x).getD n default =
      if i = n ∧ i < l.length then x else l.getD n default := by
  by_cases h1 : i = n
  · subst h1
    by_cases h2 : i < l.length
    · rw [if_pos ⟨rfl, h2⟩, List.getD_eq_getElem?_getD, List.getElem?_set,
        if_pos rfl, if_pos h2, Option.getD_some]
    · rw [if_neg (show ¬(i = i ∧ i < l.length) from fun hh => h2 hh.2),
        List.getD_eq_getElem?_getD, List.getD_eq_getElem?_getD, List.getElem?_set,
        if_pos rfl, if_neg h2, List.getElem?_eq_none (by omega)]
  · rw [if_neg (show ¬(i = n ∧ i < l.length) from fun hh => h1 hh.1),
      List.getD_eq_getElem?_getD, List.getD_eq_getElem?_getD, List.getElem?_set,
      if_neg h1]

theorem length_listSwap (d : List α) (a b : Nat) :
    (listSwap d a b).length = d.length := by
  simp [listSwap]

theorem getD_listSwap (d : List α) (a b n : Nat) (ha : a < d.length) (hb : b < d.length) :
    (listSwap d a b).getD n default =
      if n = b then d.getD a default
      else if n = a then d.getD b default
      else d.getD n default := by
  unfold listSwap
  rw [getD_set, getD_set]
  simp only [List.length_set]
  by_cases h1 : n = b
  · rw [if_pos h1, if_pos ⟨h1.symm, hb⟩]
  · rw [if_neg h1, if_neg (show ¬(b = n ∧ b < d.length) from fun hh => h1 hh.1.symm)]
    by_cases h2 : n = a
    · rw [if_pos h2, if_pos ⟨h2.symm, ha⟩]
    · rw [if_neg h2, if_neg (show ¬(a = n ∧ a < d.length) from fun hh => h2 hh.1.symm)]

theorem cons_set_perm (t : List α) :
    ∀ (m : Nat), m < t.length → ∀ c : α,
      List.Perm (t.getD m default :: t.set m c) (c :: t) := by
  induction t with
  | nil => intro m hm; simp at hm
  | cons u s ih =>
    intro m hm c
    cases m with
    | zero =>
      simp only [List.getD_cons_zero, List.set_cons_zero]
      exact List.Perm.swap c u s
    | succ k =>
      simp only [List.getD_cons_succ, List.set_cons_succ]
      have hk : k < s.length := by simpa using hm
      have h1 : List.Perm (s.getD k default :: u :: s.set k c)
          (u :: s.getD k default :: s.set k c) := List.Perm.swap _ _ _
      have h2 : List.Perm (u :: s.getD k default :: s.set k c) (u :: c :: s) :=
        List.Perm.cons u (ih k hk c)
      have h3 : List.Perm (u :: c :: s) (c :: u :: s) := List.Perm.swap _ _ _
      exact (h1.trans h2).trans h3

theorem listSwap_perm (l : List α) :
    ∀ (a b : Nat), a < l.length → b < l.length → List.Perm (listSwap l a b) l := by
  induction l with
  | nil => intro a b ha _; simp at ha
  | cons u t ih =>
    intro a b ha hb
    cases a with
    | zero =>
      cases b with
      | zero =>
        simp only [listSwap, List.getD_cons_zero, List.set_cons_zero]
        exact List.Perm.refl _
      | succ m =>
        simp only [listSwap, List.getD_cons_zero, List.getD_cons_succ,
          List.set_cons_zero, List.set_cons_succ]
        exact cons_set_perm t m (by simpa using hb) u
    | succ n =>
      cases b with
      | zero =>
        simp only [listSwap, List.getD_cons_zero, List.getD_cons_succ,
          List.set_cons_zero, List.set_cons_succ]
        exact cons_set_perm t n (by simpa using ha) u
      | succ m =>
        simp only [listSwap, List.getD_cons_succ, List.set_cons_succ]
        exact List.Perm.cons u (ih n m (by simpa using ha) (by simpa using hb))

theorem getD_take_of_lt (l : List α) (n i : Nat) (h : i < n) :
    (l.take n).getD i default = l.getD i default := by
  rw [List.getD_eq_getElem?_getD, List.getD_eq_getElem?_getD, List.getElem?_take, if_pos h]

theorem take_set_of_lt (l : List α) (i : Nat) (x : α) (n : Nat) (h : i < n) :
    (l.set i x).take n = (l.take n).set i x := by
  apply List.ext_getElem?
  intro j
  simp only [List.getElem?_take, List.getElem?_set, List.length_take]
  by_cases hj : j < n
  · by_cases hij : i = j
    · subst hij
      by_cases hl : i < l.length
      · simp [hj, hl, Nat.lt_min]
      · simp [hj, hl, Nat.lt_min]
    · simp [hj, hij]
  · by_cases hij : i = j
    · subst hij; omega
    · simp [hj, hij]

theorem take_listSwap_perm (d : List α) (a b n : Nat)
    (ha : a < n) (hb : b < n) (hn : n ≤ d.length) :
    List.Perm ((listSwap d a b).take n) (d.take n) := by
  have h1 : (listSwap d a b).take n = listSwap (d.take n) a b := by
    unfold listSwap
    rw [take_set_of_lt _ _ _ _ hb, take_set_of_lt _ _ _ _ ha,
      getD_take_of_lt _ _ _ hb, getD_take_of_lt _ _ _ ha]
  rw [h1]
  exact listSwap_perm _ a b (by rw [List.length_take]; omega)
    (by rw [List.length_take]; omega)

end Buffer

/-! ### Helpers relating the code's `i * 2 + k` to the tree lemmas -/

theorem Anc.left' {p i : Nat} (h : Anc p i) : Anc p (i * 2 + 1) := by
  rw [Nat.mul_comm]; exact .left h

theorem Anc.right' {p i : Nat} (h : Anc p i) : Anc p (i * 2 + 2) := by
  rw [Nat.mul_comm]; exact .right h

/-! ### Specification of the three loops of `__min_heapify` -/

section Loops

variable {α : Type} [Inhabited α]

/-- Specification of the descent loop: started at `i < nr` with enough fuel,
it ends at a descendant `e` of `i` with `e < nr ≤ 2e+2`, and every node `b`
strictly below `i` on the walked path was the chosen child of its parent, so
its live sibling does not compare strictly less than it. -/
theorem dPathGo_spec (less : α → α → Bool)
    (hirr : ∀ a, less a a = false)
    (htr : ∀ a b c, less a b = true → less b c = true → less a c = true)
    (data : List α) (nr : Nat) :
    ∀ fuel i, i < nr → nr ≤ fuel + i →
      Anc i (dPathGo less data nr fuel i) ∧
      dPathGo less data nr fuel i < nr ∧
      nr ≤ dPathGo less data nr fuel i * 2 + 2 ∧
      (∀ b, Anc i b → Anc b (dPathGo less data nr fuel i) → b ≠ i →
        sib b < nr →
        less (data.getD (sib b) default) (data.getD b default) = false) := by
  intro fuel
  induction fuel with
  | zero => intro i hi hf; omega
  | succ fuel ih =>
    intro i hi hf
    by_cases hstop : nr ≤ i * 2 + 2
    · rw [dPathGo, if_pos hstop]
      refine ⟨.refl, hi, hstop, ?_⟩
      intro b hib hbi hne _
      exact absurd (hib.antisymm hbi).symm hne
    · by_cases hlr :
        less (data.getD (i * 2 + 1) default) (data.getD (i * 2 + 2) default) = true
      · rw [dPathGo, if_neg hstop, if_pos hlr]
        obtain ⟨h1, h2, h3, h4⟩ := ih (i * 2 + 1) (by omega) (by omega)
        refine ⟨(Anc.left' .refl).trans h1, h2, h3, ?_⟩
        intro b hib hbe hne hsib
        have hblow : i < b := hib.lt_of_ne hne
        by_cases hbceq : b = i * 2 + 1
        · subst hbceq
          rw [show i * 2 + 1 = 2 * i + 1 from by omega, sib_left] at hsib ⊢
          rw [show 2 * i + 2 = i * 2 + 2 from by omega,
            show 2 * i + 1 = i * 2 + 1 from by omega]
          exact less_asymm less hirr htr hlr
        · rcases Anc.chain h1 hbe with hcb | hbc
          · exact h4 b hcb hbe hbceq hsib
          · exfalso
            have hb1 := (hbc.parentStep (fun e => hbceq e.symm)).le
            rw [show i * 2 + 1 = 2 * i + 1 from by omega, hpar_left] at hb1
            omega
      · rw [dPathGo, if_neg hstop, if_neg hlr]
        obtain ⟨h1, h2, h3, h4⟩ := ih (i * 2 + 2) (by omega) (by omega)
        refine ⟨(Anc.right' .refl).trans h1, h2, h3, ?_⟩
        intro b hib hbe hne hsib
        have hblow : i < b := hib.lt_of_ne hne
        by_cases hbceq : b = i * 2 + 2
        · subst hbceq
          rw [show i * 2 + 2 = 2 * i + 2 from by omega, sib_right] at hsib ⊢
          rw [show 2 * i + 1 = i * 2 + 1 from by omega,
            show 2 * i + 2 = i * 2 + 2 from by omega]
          exact Bool.eq_false_iff.mpr hlr
        · rcases Anc.chain h1 hbe with hcb | hbc
          · exact h4 b hcb hbe hbceq hsib
          · exfalso
            have hb1 := (hbc.parentStep (fun e => hbceq e.symm)).le
            rw [show i * 2 + 2 = 2 * i + 2 from by omega, hpar_right] at hb1
            omega

/-- Specification of the backtrack loop: started at a descendant `i` of
`pos` with enough fuel, it stops at a node `f` on the path between `pos` and
`i` such that either `f = pos` or the relocated `root` element does not
compare strictly less than the element at `f`; every node strictly between
`f` and `i` (inclusive of `i`) was walked past because `root` compares
strictly less than it. -/
theorem backtrackGo_spec (less : α → α → Bool) (root : α) (data : List α) (pos : Nat) :
    ∀ fuel i, i < fuel → Anc pos i →
      (Anc pos (backtrackGo less root data pos fuel i) ∧
        Anc (backtrackGo less root data pos fuel i) i) ∧
      (backtrackGo less root data pos fuel i = pos ∨
        less root (data.getD (backtrackGo less root data pos fuel i) default) = false) ∧
      (∀ b, Anc (backtrackGo less root data pos fuel i) b → Anc b i →
        b ≠ backtrackGo less root data pos fuel i →
        less root (data.getD b default) = true) := by
  intro fuel
  induction fuel with
  | zero => intro i hi; omega
  | succ fuel ih =>
    intro i hi hpi
    by_cases hcond : i ≠ pos ∧ less root (data.getD i default) = true
    · rw [backtrackGo, if_pos hcond]
      have hipos : 0 < i := hpi.pos_of_ne hcond.1
      have hplt : hpar i < fuel := by
        have := hpar_lt hipos; omega
      obtain ⟨⟨g1, g2⟩, g3, g4⟩ := ih (hpar i) hplt (hpi.parentStep hcond.1)
      refine ⟨⟨g1, g2.ofParent hipos⟩, g3, ?_⟩
      intro b hfb hbi hbne
      by_cases hbieq : b = i
      · subst hbieq; exact hcond.2
      · exact g4 b hfb (hbi.parentStep (Ne.symm hbieq)) hbne
    · rw [backtrackGo, if_neg hcond]
      refine ⟨⟨hpi, .refl⟩, ?_, ?_⟩
      · by_cases hip : i = pos
        · exact Or.inl hip
        · refine Or.inr ?_
          rcases Bool.eq_false_or_eq_true (less root (data.getD i default)) with h | h
          · exact absurd ⟨hip, h⟩ hcond
          · exact h
      · intro b hib hbi hbne
        exact absurd (hib.antisymm hbi).symm hbne

/-- Specification of the shift loop `shiftGo pos j fuel i data`: slot `j`
ends up holding the element that was at `pos`; the element of each node `c`
on the path strictly between `pos` and `i` moves to its parent slot, the
element at `i` itself being replaced in its parent slot by the current
contents of slot `j`; every slot other than `j` and the interior path slots
is untouched; the first `n` live slots are permuted when the touched slots
lie below `n`. -/
theorem shiftGo_spec (pos : Nat) (n : Nat) :
    ∀ fuel i j (data : List α), i < fuel → Anc pos i → Anc i j →
      j < data.length → j < n → n ≤ data.length →
      (shiftGo pos j fuel i data).length = data.length ∧
      (i = pos → shiftGo pos j fuel i data = data) ∧
      (i ≠ pos →
        (shiftGo pos j fuel i data).getD j default = data.getD pos default) ∧
      (∀ c, Anc pos c → Anc c i → c ≠ pos →
        (shiftGo pos j fuel i data).getD (hpar c) default =
          (if c = i then data.getD j default else data.getD c default)) ∧
      (∀ x, x ≠ j → ¬(Anc pos x ∧ Anc x i ∧ x ≠ i) →
        (shiftGo pos j fuel i data).getD x default = data.getD x default) ∧
      List.Perm ((shiftGo pos j fuel i data).take n) (data.take n) := by
  intro fuel
  induction fuel with
  | zero => intro i j data hi; omega
  | succ fuel ih =>
    intro i j data hi hpi hij hjlen hjn hnlen
    by_cases hipos : i = pos
    · subst hipos
      rw [shiftGo, if_pos rfl]
      refine ⟨rfl, fun _ => rfl, fun hne => absurd rfl hne, ?_, fun _ _ _ => rfl,
        List.Perm.refl _⟩
      intro c hpc hci hcne
      exact absurd (hci.antisymm hpc) hcne
    · rw [shiftGo, if_neg hipos]
      have hipos' : 0 < i := hpi.pos_of_ne hipos
      have hile : i ≤ j := hij.le
      have hplt : hpar i < i := hpar_lt hipos'
      have hplen : hpar i < data.length := by omega
      have hanc_pp : Anc pos (hpar i) := hpi.parentStep hipos
      have hanc_pi : Anc (hpar i) i := (Anc.refl).ofParent hipos'
      have hanc_pj : Anc (hpar i) j := hanc_pi.trans hij
      have hswlen : j < (listSwap data (hpar i) j).length := by
        rw [length_listSwap]; exact hjlen
      have hget := fun x => getD_listSwap data (hpar i) j x hplen hjlen
      obtain ⟨g1, g2, g3, g4, g5, g6⟩ :=
        ih (hpar i) j (listSwap data (hpar i) j) (by omega) hanc_pp hanc_pj hswlen hjn
          (by rw [length_listSwap]; exact hnlen)
      have hjne_hp : j ≠ hpar i := by omega
      have hpos_lt : pos < i := hpi.lt_of_ne hipos
      refine ⟨?_, fun e => absurd e hipos, ?_, ?_, ?_, ?_⟩
      · rw [g1, length_listSwap]
      · intro _
        by_cases hpp : hpar i = pos
        · rw [g2 hpp, hget j, if_pos rfl, hpp]
        · rw [g3 hpp, hget pos, if_neg (by omega), if_neg (fun e => hpp e.symm)]
      · intro c hpc hci hcne
        by_cases hceq : c = i
        · subst hceq
          rw [if_pos rfl]
          have hfr : (shiftGo pos j fuel (hpar c) (listSwap data (hpar c) j)).getD
              (hpar c) default = (listSwap data (hpar c) j).getD (hpar c) default :=
            g5 (hpar c) hjne_hp.symm (fun hh => hh.2.2 rfl)
          rw [hfr, hget (hpar c), if_neg hjne_hp.symm, if_pos rfl]
        · have hchp : Anc c (hpar i) := hci.parentStep (Ne.symm hceq)
          rw [if_neg hceq]
          by_cases hcp : c = hpar i
          · subst hcp
            have hpp : hpar i ≠ pos := fun e => hcne e
            rw [g4 (hpar i) hanc_pp .refl hpp, if_pos rfl, hget j, if_pos rfl]
          · have hclt : c < hpar i := hchp.lt_of_ne (Ne.symm hcp)
            rw [g4 c hpc hchp hcne, if_neg hcp, hget c, if_neg (by omega),
              if_neg (by omega)]
      · intro x hxj hxpath
        have hxne_hp : x ≠ hpar i := by
          intro e; subst e
          exact hxpath ⟨hanc_pp, hanc_pi, by omega⟩
        rw [g5 x hxj ?_, hget x, if_neg hxj, if_neg hxne_hp]
        intro ⟨a1, a2, a3⟩
        exact hxpath ⟨a1, a2.trans hanc_pi, by
          have := a2.le; have := hpar_lt hipos'; omega⟩
      · exact g6.trans (take_listSwap_perm data (hpar i) j n (by omega) hjn hnlen)

end Loops

/-! ### Specification of `__min_heapify` -/

section Heapify

variable {α : Type} [Inhabited α]

theorem sib_eq_of_children {p c b : Nat} (hc : c = 2 * p + 1 ∨ c = 2 * p + 2)
    (hb : b = 2 * p + 1 ∨ b = 2 * p + 2) (hne : c ≠ b) : sib b = c := by
  rcases hc with e1 | e1 <;> rcases hb with e2 | e2 <;> subst e1 <;> subst e2
  · exact absurd rfl hne
  · rw [sib_right]
  · rw [sib_left]
  · exact absurd rfl hne

theorem hpar_of_child {p b : Nat} (hb : b = 2 * p + 1 ∨ b = 2 * p + 2) : hpar b = p := by
  rcases hb with e | e
  · rw [e, hpar_left]
  · rw [e, hpar_right]

theorem anc_child {p b : Nat} (hb : b = 2 * p + 1 ∨ b = 2 * p + 2) : Anc p b := by
  rcases hb with e | e
  · rw [e]; exact .left .refl
  · rw [e]; exact .right .refl

theorem min_heapify_eq (less : α → α → Bool) (data : List α) (nr pos : Nat) :
    min_heapify less data nr pos =
      shiftGo pos (heapifyDest less data nr pos) (heapifyDest less data nr pos + 1)
        (heapifyDest less data nr pos) data := rfl

/-- Bounds facts about the descent: no ordering assumptions needed. -/
theorem dPathGo_bounds (less : α → α → Bool) (data : List α) (nr : Nat) :
    ∀ fuel i, i < nr → nr ≤ fuel + i →
      Anc i (dPathGo less data nr fuel i) ∧
      dPathGo less data nr fuel i < nr ∧
      nr ≤ dPathGo less data nr fuel i * 2 + 2 := by
  intro fuel
  induction fuel with
  | zero => intro i hi hf; omega
  | succ fuel ih =>
    intro i hi hf
    by_cases hstop : nr ≤ i * 2 + 2
    · rw [dPathGo, if_pos hstop]; exact ⟨.refl, hi, hstop⟩
    · rw [dPathGo, if_neg hstop]
      by_cases hlr :
        less (data.getD (i * 2 + 1) default) (data.getD (i * 2 + 2) default) = true
      · rw [if_pos hlr]
        obtain ⟨h1, h2, h3⟩ := ih (i * 2 + 1) (by omega) (by omega)
        exact ⟨(Anc.left' .refl).trans h1, h2, h3⟩
      · rw [if_neg hlr]
        obtain ⟨h1, h2, h3⟩ := ih (i * 2 + 2) (by omega) (by omega)
        exact ⟨(Anc.right' .refl).trans h1, h2, h3⟩

/-- Bounds facts about the descent endpoint (after the single-child special
case) and the final resting index. -/
theorem heapifyPath_bounds (less : α → α → Bool) (data : List α) (nr pos : Nat)
    (hp : pos < nr) :
    Anc pos (heapifySpecialStep less data nr pos) ∧
    heapifySpecialStep less data nr pos < nr ∧
    nr ≤ 2 * heapifySpecialStep less data nr pos + 1 ∧
    Anc pos (heapifyDest less data nr pos) ∧
    Anc (heapifyDest less data nr pos) (heapifySpecialStep less data nr pos) := by
  obtain ⟨a1, a2, a3⟩ := dPathGo_bounds less data nr nr pos hp (by omega)
  have hb : Anc pos (heapifySpecialStep less data nr pos) ∧
      heapifySpecialStep less data nr pos < nr ∧
      nr ≤ 2 * heapifySpecialStep less data nr pos + 1 := by
    unfold heapifySpecialStep
    by_cases hsp : dPath less data nr pos * 2 + 2 = nr
    · rw [if_pos hsp]
      have ha1 : Anc pos (dPath less data nr pos) := a1
      exact ⟨ha1.trans (Anc.left' .refl), by
        have := a2; unfold dPath at *; omega, by
        have := a2; unfold dPath at *; omega⟩
    · rw [if_neg hsp]
      have ha1 : Anc pos (dPath less data nr pos) := a1
      exact ⟨ha1, a2, by
        have := a3; unfold dPath at *; omega⟩
  obtain ⟨b1, b2, b3⟩ := hb
  obtain ⟨⟨c1, c2⟩, _, _⟩ := backtrackGo_spec less (data.getD pos default) data pos
    (heapifySpecialStep less data nr pos + 1) (heapifySpecialStep less data nr pos)
    (by omega) b1
  exact ⟨b1, b2, b3, c1, c2⟩

/-- Ordering facts gathered along the walked path: the stop condition of the
backtrack loop at the resting index, the walked-past condition below it, and
the chosen-child condition along the descent. -/
theorem heapifyPath_order (less : α → α → Bool)
    (hirr : ∀ a, less a a = false)
    (htr : ∀ a b c, less a b = true → less b c = true → less a c = true)
    (data : List α) (nr pos : Nat) (hp : pos < nr) :
    (heapifyDest less data nr pos = pos ∨
      less (data.getD pos default)
        (data.getD (heapifyDest less data nr pos) default) = false) ∧
    (∀ b, Anc (heapifyDest less data nr pos) b →
      Anc b (heapifySpecialStep less data nr pos) →
      b ≠ heapifyDest less data nr pos →
      less (data.getD pos default) (data.getD b default) = true) ∧
    (∀ b, Anc pos b → Anc b (heapifySpecialStep less data nr pos) → b ≠ pos →
      sib b < nr →
      less (data.getD (sib b) default) (data.getD b default) = false) := by
  obtain ⟨a1, a2, a3, a4⟩ := dPathGo_spec less hirr htr data nr nr pos hp (by omega)
  obtain ⟨b1, b2, b3, _, _⟩ := heapifyPath_bounds less data nr pos hp
  obtain ⟨_, k3, k2⟩ := backtrackGo_spec less (data.getD pos default) data pos
    (heapifySpecialStep less data nr pos + 1) (heapifySpecialStep less data nr pos)
    (by omega) b1
  refine ⟨k3, k2, ?_⟩
  intro b hpb hbi1 hbne hsib
  unfold heapifySpecialStep at hbi1
  by_cases hsp : dPath less data nr pos * 2 + 2 = nr
  · rw [if_pos hsp] at hbi1
    have hbi1' : Anc b (2 * dPath less data nr pos + 1) := by
      rw [show 2 * dPath less data nr pos + 1 = dPath less data nr pos * 2 + 1 from
        by omega]
      exact hbi1
    rcases hbi1'.child_left_cases with e | hanc
    · exfalso
      have : sib b = dPath less data nr pos * 2 + 2 := by
        rw [e, sib_left]; omega
      omega
    · exact a4 b hpb hanc hbne hsib
  · rw [if_neg hsp] at hbi1
    exact a4 b hpb hbi1 hbne hsib

/-- How `__min_heapify` transforms the buffer: the element at `pos` lands in
the resting slot, every interior path element moves up one slot, everything
else is untouched, and the live prefix is permuted. -/
theorem min_heapify_values (less : α → α → Bool) (data : List α) (nr pos : Nat)
    (hl : nr ≤ data.length) (hp : pos < nr) :
    (min_heapify less data nr pos).length = data.length ∧
    (min_heapify less data nr pos).getD (heapifyDest less data nr pos) default =
      data.getD pos default ∧
    (∀ c, Anc pos c → Anc c (heapifyDest less data nr pos) → c ≠ pos →
      (min_heapify less data nr pos).getD (hpar c) default = data.getD c default) ∧
    (∀ x, ¬(Anc pos x ∧ Anc x (heapifyDest less data nr pos)) →
      (min_heapify less data nr pos).getD x default = data.getD x default) ∧
    List.Perm ((min_heapify less data nr pos).take nr) (data.take nr) := by
  obtain ⟨b1, b2, b3, b4, b5⟩ := heapifyPath_bounds less data nr pos hp
  have hfnr : heapifyDest less data nr pos < nr := lt_of_le_of_lt b5.le b2
  obtain ⟨s1, s2, s3, s4, s5, s6⟩ := shiftGo_spec pos nr
    (heapifyDest less data nr pos + 1) (heapifyDest less data nr pos)
    (heapifyDest less data nr pos) data (by omega) b4 .refl (by omega) hfnr hl
  rw [min_heapify_eq]
  refine ⟨s1, ?_, ?_, ?_, s6⟩
  · by_cases hfp : heapifyDest less data nr pos = pos
    · rw [s2 hfp, hfp]
    · exact s3 hfp
  · intro c h1 h2 h3
    rw [s4 c h1 h2 h3]
    by_cases hcf : c = heapifyDest less data nr pos
    · rw [if_pos hcf, hcf]
    · rw [if_neg hcf]
  · intro x hx
    have hxf : x ≠ heapifyDest less data nr pos := fun e => hx (by rw [e]; exact ⟨b4, .refl⟩)
    exact s5 x hxf (fun hh => hx ⟨hh.1, hh.2.1⟩)

/-- Main correctness of `__min_heapify`: if every live parent-child pair
whose parent lies strictly inside the subtree rooted at `pos` is ordered
(i.e. the subtrees rooted at the children of `pos` are heaps), then after
the call the whole subtree rooted at `pos` is a heap.  Requires `less` to be
a strict weak order (irreflexive, transitive, with transitive complement). -/
theorem min_heapify_subHeap (less : α → α → Bool)
    (hirr : ∀ a, less a a = false)
    (htr : ∀ a b c, less a b = true → less b c = true → less a c = true)
    (data : List α) (nr pos : Nat)
    (hl : nr ≤ data.length) (hp : pos < nr)
    (pre : ∀ c, 0 < c → c < nr → Anc pos (hpar c) → hpar c ≠ pos →
      less (data.getD c default) (data.getD (hpar c) default) = false) :
    subHeap less (min_heapify less data nr pos) nr pos := by
  obtain ⟨b1, b2, b3, b4, b5⟩ := heapifyPath_bounds less data nr pos hp
  obtain ⟨k3, k2, k1⟩ := heapifyPath_order less hirr htr data nr pos hp
  obtain ⟨v0, v2, v1, v3, _⟩ := min_heapify_values less data nr pos hl hp
  have hfnr : heapifyDest less data nr pos < nr := lt_of_le_of_lt b5.le b2
  intro c hc0 hcnr hanc
  have hpc_lt : hpar c < c := hpar_lt hc0
  have hcc : c = 2 * hpar c + 1 ∨ c = 2 * hpar c + 2 := child_of_pos hc0
  have hpos_le : pos ≤ hpar c := hanc.le
  by_cases hpF : hpar c = heapifyDest less data nr pos
  · -- the parent slot is the resting slot: its new value is the root element
    have hcnotpath : ¬(Anc pos c ∧ Anc c (heapifyDest less data nr pos)) := by
      rintro ⟨_, hcf⟩
      have := hcf.le
      omega
    have hrc := v3 c hcnotpath
    have hrp : (min_heapify less data nr pos).getD (hpar c) default =
        data.getD pos default := by rw [hpF]; exact v2
    rw [hrc, hrp]
    by_cases hFI : heapifyDest less data nr pos = heapifySpecialStep less data nr pos
    · exfalso
      rcases hcc with e | e <;> omega
    · obtain ⟨b, hbchild, hbI1⟩ := Anc.stepToward b5 hFI
      have hFb : Anc (heapifyDest less data nr pos) b := anc_child hbchild
      have hbneF : b ≠ heapifyDest less data nr pos := by
        rcases hbchild with e | e <;> omega
      have hK2b := k2 b hFb hbI1 hbneF
      by_cases hcb : c = b
      · rw [hcb]
        exact less_asymm less hirr htr hK2b
      · have hsibb : sib b = c := by
          apply sib_eq_of_children (p := hpar c) hcc _ hcb
          rw [hpF]; exact hbchild
        have hposb : Anc pos b := b4.trans hFb
        have hbnepos : b ≠ pos := by
          have h1 := hFb.lt_of_ne hbneF
          have h2 := b4.le
          omega
        have hK1 := k1 b hposb hbI1 hbnepos (by rw [hsibb]; exact hcnr)
        rw [hsibb] at hK1
        cases hgoal : less (data.getD c default) (data.getD pos default)
        · rfl
        · have := htr _ _ _ hgoal hK2b
          rw [hK1] at this
          exact this.symm
  · by_cases hpPath : Anc pos (hpar c) ∧ Anc (hpar c) (heapifyDest less data nr pos)
    · -- the parent is strictly above the resting slot on the walked path
      obtain ⟨hpp, hpf⟩ := hpPath
      obtain ⟨b, hbchild, hbF⟩ := Anc.stepToward hpf hpF
      have hpb : Anc (hpar c) b := anc_child hbchild
      have hAncposb : Anc pos b := hpp.trans hpb
      have hbne_pos : b ≠ pos := by
        rcases hbchild with e | e <;> omega
      have hrp : (min_heapify less data nr pos).getD (hpar c) default =
          data.getD b default := by
        have := v1 b hAncposb hbF hbne_pos
        rwa [hpar_of_child hbchild] at this
      by_cases hcb : c = b
      · by_cases hbF' : b = heapifyDest less data nr pos
        · have hrc : (min_heapify less data nr pos).getD c default =
              data.getD pos default := by rw [hcb, hbF']; exact v2
          rw [hrc, hrp]
          rcases k3 with e | e
          · exact absurd (hbF'.trans e) hbne_pos
          · rw [← hbF'] at e; exact e
        · obtain ⟨b', hb'child, hb'F⟩ := Anc.stepToward hbF hbF'
          have hparb' : hpar b' = b := hpar_of_child hb'child
          have hb'pos : b' ≠ pos := by
            have h1 : b ≤ b' := (anc_child hb'child).le
            rcases hbchild with e | e <;> rcases hb'child with e2 | e2 <;> omega
          have hrc : (min_heapify less data nr pos).getD c default =
              data.getD b' default := by
            rw [hcb, ← hparb']
            exact v1 b' (hAncposb.trans (anc_child hb'child)) hb'F hb'pos
          rw [hrc, hrp]
          have hb'0 : 0 < b' := by rcases hb'child with e | e <;> omega
          have hb'nr : b' < nr := lt_of_le_of_lt hb'F.le hfnr
          have := pre b' hb'0 hb'nr (hparb' ▸ hAncposb) (hparb' ▸ hbne_pos)
          rwa [hparb'] at this
      · have hsibb : sib b = c := by
          apply sib_eq_of_children (p := hpar c) hcc _ hcb
          exact hbchild
        have hcnotpath : ¬(Anc pos c ∧ Anc c (heapifyDest less data nr pos)) := by
          rintro ⟨_, hcf⟩
          rcases Anc.chain hcf hbF with hcb' | hbc'
          · exact Anc.sib_not hcc hbchild hcb hcb'
          · exact Anc.sib_not hbchild hcc (fun e => hcb e.symm) hbc'
        have hrc := v3 c hcnotpath
        rw [hrc, hrp]
        have hK1 := k1 b hAncposb (hbF.trans b5) hbne_pos (by rw [hsibb]; exact hcnr)
        rw [hsibb] at hK1
        exact hK1
    · -- pair disjoint from the walked path: both slots untouched
      have hcnotpath : ¬(Anc pos c ∧ Anc c (heapifyDest less data nr pos)) := by
        rintro ⟨_, hcf⟩
        exact hpPath ⟨hanc, ((Anc.refl).ofParent hc0).trans hcf⟩
      have hrc := v3 c hcnotpath
      have hrp := v3 (hpar c) (fun hh => hpPath hh)
      rw [hrc, hrp]
      have hppos_ne : hpar c ≠ pos := fun e => hpPath ⟨hanc, e ▸ b4⟩
      exact pre c hc0 hcnr hanc hppos_ne

end Heapify

/-! ### Bridges between the invariant formulations -/

section Bridges

variable {α : Type} [Inhabited α]

theorem heapProp_zero (less : α → α → Bool) (data : List α) :
    heapProp less data 0 := by
  intro i hi
  omega

theorem heapProp_iff_child (less : α → α → Bool) (data : List α) (nr : Nat) :
    heapProp less data nr ↔
      ∀ c, 0 < c → c < nr →
        less (data.getD c default) (data.getD (hpar c) default) = false := by
  constructor
  · intro hp c hc0 hcnr
    have := hp (hpar c) (by have := hpar_lt hc0; omega) c hcnr (child_of_pos hc0)
    exact this
  · intro hp i hi c hc hcc
    have h0 : 0 < c := by omega
    have := hp c h0 hc
    rwa [hpar_of_child hcc] at this

theorem heapProp_iff_subHeap_zero (less : α → α → Bool) (data : List α) (nr : Nat) :
    heapProp less data nr ↔ subHeap less data nr 0 := by
  rw [heapProp_iff_child]
  constructor
  · intro hp c hc0 hcnr _
    exact hp c hc0 hcnr
  · intro hs c hc0 hcnr
    exact hs c hc0 hcnr (anc_zero _)

end Bridges

/-! ### Specification of `__min_heapify_all` (Floyd's construction) -/

section HeapifyAll

variable {α : Type} [Inhabited α]

theorem heapifyAllGo_spec (less : α → α → Bool)
    (hirr : ∀ a, less a a = false)
    (htr : ∀ a b c, less a b = true → less b c = true → less a c = true)
    (nr : Nat) :
    ∀ k (data : List α), nr ≤ data.length → 2 * k ≤ nr →
      (∀ j, k ≤ j → subHeap less data nr j) →
      (∀ j, subHeap less (heapifyAllGo less data nr k) nr j) ∧
      (heapifyAllGo less data nr k).length = data.length ∧
      List.Perm ((heapifyAllGo less data nr k).take nr) (data.take nr) ∧
      (∀ x, nr ≤ x →
        (heapifyAllGo less data nr k).getD x default = data.getD x default) := by
  intro k
  induction k with
  | zero =>
    intro data _ _ hsub
    exact ⟨fun j => hsub j (Nat.zero_le _), rfl, List.Perm.refl _, fun _ _ => rfl⟩
  | succ k ih =>
    intro data hlen hk hsub
    have hknr : k < nr := by omega
    have pre : ∀ c, 0 < c → c < nr → Anc k (hpar c) → hpar c ≠ k →
        less (data.getD c default) (data.getD (hpar c) default) = false := by
      intro c hc0 hcnr hanc hne
      rcases hanc.firstStep hne with h1 | h1
      · exact hsub (2 * k + 1) (by omega) c hc0 hcnr h1
      · exact hsub (2 * k + 2) (by omega) c hc0 hcnr h1
    have hs : subHeap less (min_heapify less data nr k) nr k :=
      min_heapify_subHeap less hirr htr data nr k hlen hknr pre
    obtain ⟨v0, _, _, v3, v5⟩ := min_heapify_values less data nr k hlen hknr
    obtain ⟨b1, b2, _, b4, b5⟩ := heapifyPath_bounds less data nr k hknr
    have hfnr : heapifyDest less data nr k < nr := lt_of_le_of_lt b5.le b2
    have hsub' : ∀ j, k ≤ j → subHeap less (min_heapify less data nr k) nr j := by
      intro j hj
      rcases Nat.eq_or_lt_of_le hj with e | hjlt
      · exact e ▸ hs
      · by_cases hkj : Anc k j
        · intro c hc0 hcnr hanc
          exact hs c hc0 hcnr (hkj.trans hanc)
        · intro c hc0 hcnr hanc
          have hjc : Anc j c := hanc.ofParent hc0
          have hnc : ¬ Anc k c := by
            intro hkc
            rcases Anc.chain hkc hjc with h1 | h1
            · exact hkj h1
            · have := h1.le; omega
          have hnp : ¬ Anc k (hpar c) := by
            intro hkp
            rcases Anc.chain hkp hanc with h1 | h1
            · exact hkj h1
            · have := h1.le; omega
          have e1 := v3 c (fun hh => hnc hh.1)
          have e2 := v3 (hpar c) (fun hh => hnp hh.1)
          rw [e1, e2]
          exact hsub j (by omega) c hc0 hcnr hanc
    rw [heapifyAllGo]
    obtain ⟨g1, g2, g3, g4⟩ := ih (min_heapify less data nr k) (by omega) (by omega) hsub'
    refine ⟨g1, g2.trans v0, g3.trans v5, ?_⟩
    intro x hx
    rw [g4 x hx]
    exact v3 x (by
      rintro ⟨_, hxf⟩
      have := hxf.le
      omega)

/-- `__min_heapify_all` establishes the heap property over the live prefix
from any arrangement. -/
theorem min_heapify_all_spec (less : α → α → Bool)
    (hirr : ∀ a, less a a = false)
    (htr : ∀ a b c, less a b = true → less b c = true → less a c = true)
    (data : List α) (nr : Nat) (hlen : nr ≤ data.length) :
    heapProp less (min_heapify_all less data nr) nr ∧
    (min_heapify_all less data nr).length = data.length ∧
    List.Perm ((min_heapify_all less data nr).take nr) (data.take nr) ∧
    (∀ x, nr ≤ x →
      (min_heapify_all less data nr).getD x default = data.getD x default) := by
  have hbase : ∀ j, nr / 2 ≤ j → subHeap less data nr j := by
    intro j hj c hc0 hcnr hanc
    exfalso
    have h1 := hanc.le
    have h2 := child_of_pos hc0
    omega
  obtain ⟨g1, g2, g3, g4⟩ :=
    heapifyAllGo_spec less hirr htr nr (nr / 2) data hlen (by omega) hbase
  exact ⟨(heapProp_iff_subHeap_zero less _ nr).mpr (g1 0), g2, g3, g4⟩

end HeapifyAll

/-! ### Specification of the sift-up loop of `__min_heap_push` -/

section SiftUp

variable {α : Type} [Inhabited α]

/-- Correctness of the sift-up loop: if all live parent-child pairs except
the one above `pos` are ordered, and the children of `pos` are additionally
not strictly less than the element above `pos` (so that the grandparent can
safely drop into `pos`), then after the loop every live pair is ordered.
The loop only swaps inside the live prefix. -/
theorem siftUpGo_spec (less : α → α → Bool)
    (hirr : ∀ a, less a a = false)
    (htr : ∀ a b c, less a b = true → less b c = true → less a c = true)
    (hneg : ∀ a b c, less a b = false → less b c = false → less a c = false)
    (N : Nat) :
    ∀ fuel pos (data : List α), pos < fuel → pos < N → N ≤ data.length →
      (∀ c, 0 < c → c < N → c ≠ pos →
        less (data.getD c default) (data.getD (hpar c) default) = false) →
      (∀ c, c < N → (c = 2 * pos + 1 ∨ c = 2 * pos + 2) →
        less (data.getD c default) (data.getD (hpar pos) default) = false) →
      (∀ c, 0 < c → c < N →
        less ((siftUpGo less fuel pos data).getD c default)
          ((siftUpGo less fuel pos data).getD (hpar c) default) = false) ∧
      (siftUpGo less fuel pos data).length = data.length ∧
      List.Perm ((siftUpGo less fuel pos data).take N) (data.take N) ∧
      (∀ x, N ≤ x → (siftUpGo less fuel pos data).getD x default = data.getD x default) := by
  intro fuel
  induction fuel with
  | zero => intro pos data hf; omega
  | succ fuel ih =>
    intro pos data hf hN hlen hi hii
    by_cases hp0 : pos = 0
    · rw [siftUpGo, if_pos hp0]
      refine ⟨?_, rfl, List.Perm.refl _, fun _ _ => rfl⟩
      intro c hc0 hcN
      exact hi c hc0 hcN (by omega)
    · by_cases hstop :
        less (data.getD (hpar pos) default) (data.getD pos default) = true
      · rw [siftUpGo, if_neg hp0, if_pos hstop]
        refine ⟨?_, rfl, List.Perm.refl _, fun _ _ => rfl⟩
        intro c hc0 hcN
        by_cases hcpos : c = pos
        · subst hcpos
          exact less_asymm less hirr htr hstop
        · exact hi c hc0 hcN hcpos
      · rw [siftUpGo, if_neg hp0, if_neg hstop]
        have hpos0 : 0 < pos := by omega
        have hP_lt : hpar pos < pos := hpar_lt hpos0
        have hP_len : hpar pos < data.length := by omega
        have hpos_len : pos < data.length := by omega
        have hcond : less (data.getD (hpar pos) default) (data.getD pos default) = false :=
          Bool.eq_false_iff.mpr hstop
        have hget := fun x => getD_listSwap data (hpar pos) pos x hP_len hpos_len
        have hchild : pos = 2 * hpar pos + 1 ∨ pos = 2 * hpar pos + 2 := child_of_pos hpos0
        -- invariant (i) for the swapped buffer at the parent position
        have hi' : ∀ c, 0 < c → c < N → c ≠ hpar pos →
            less ((listSwap data (hpar pos) pos).getD c default)
              ((listSwap data (hpar pos) pos).getD (hpar c) default) = false := by
          intro c hc0 hcN hcP
          rw [hget c, hget (hpar c)]
          by_cases hc_pos : c = pos
          · subst hc_pos
            rw [if_pos rfl, if_neg (by omega), if_pos rfl]
            exact hcond
          · rw [if_neg hc_pos, if_neg (fun e => hcP e)]
            by_cases hpc_pos : hpar c = pos
            · rw [if_pos hpc_pos]
              have hc_child : c = 2 * pos + 1 ∨ c = 2 * pos + 2 := by
                have := child_of_pos hc0
                rw [hpc_pos] at this
                exact this
              exact hii c hcN hc_child
            · rw [if_neg hpc_pos]
              by_cases hpc_P : hpar c = hpar pos
              · rw [if_pos hpc_P]
                have h1 := hi c hc0 hcN hc_pos
                rw [hpc_P] at h1
                exact hneg _ _ _ h1 hcond
              · rw [if_neg hpc_P]
                exact hi c hc0 hcN hc_pos
        -- invariant (ii) for the swapped buffer: children of `hpar pos`
        have hii' : ∀ c, c < N → (c = 2 * hpar pos + 1 ∨ c = 2 * hpar pos + 2) →
            less ((listSwap data (hpar pos) pos).getD c default)
              ((listSwap data (hpar pos) pos).getD (hpar (hpar pos)) default) = false := by
          intro c hcN hc_child
          have hcP : c ≠ hpar pos := by rcases hc_child with e | e <;> omega
          have hgp_ne_pos : hpar (hpar pos) ≠ pos := by
            have := hpar_le (hpar pos); omega
          rw [hget c, hget (hpar (hpar pos)), if_neg hgp_ne_pos]
          by_cases hc_pos : c = pos
          · rw [if_pos hc_pos]
            by_cases hP0 : hpar pos = 0
            · rw [if_pos (show hpar (hpar pos) = hpar pos from by rw [hP0]; rfl)]
              exact hcond
            · rw [if_neg (show hpar (hpar pos) ≠ hpar pos from by
                have := hpar_lt (Nat.pos_of_ne_zero hP0); omega)]
              exact hi (hpar pos) (Nat.pos_of_ne_zero hP0) (by omega) (by omega)
          · rw [if_neg hc_pos, if_neg hcP]
            have h1 := hi c (by rcases hc_child with e | e <;> omega) hcN hc_pos
            rw [hpar_of_child hc_child] at h1
            by_cases hP0 : hpar pos = 0
            · rw [if_pos (show hpar (hpar pos) = hpar pos from by rw [hP0]; rfl)]
              exact hneg _ _ _ h1 hcond
            · rw [if_neg (show hpar (hpar pos) ≠ hpar pos from by
                have := hpar_lt (Nat.pos_of_ne_zero hP0); omega)]
              exact hneg _ _ _ h1 (hi (hpar pos) (Nat.pos_of_ne_zero hP0) (by omega) (by omega))
        obtain ⟨g1, g2, g3, g4⟩ := ih (hpar pos) (listSwap data (hpar pos) pos)
          (by omega) (by omega) (by rw [length_listSwap]; exact hlen) hi' hii'
        refine ⟨g1, by rw [g2, length_listSwap], ?_, ?_⟩
        · exact g3.trans (take_listSwap_perm data (hpar pos) pos N (by omega) hN hlen)
        · intro x hx
          rw [g4 x hx, hget x, if_neg (by omega), if_neg (by omega)]

end SiftUp

/-! ### Multiset bookkeeping for the live prefix -/

section LiveMultiset

variable {α : Type} [Inhabited α]

theorem take_set_of_ge (l : List α) (i : Nat) (x : α) (n : Nat) (h : n ≤ i) :
    (l.set i x).take n = l.take n := by
  apply List.ext_getElem?
  intro j
  simp only [List.getElem?_take, List.getElem?_set]
  by_cases hj : j < n
  · rw [if_pos hj, if_pos hj, if_neg (by omega)]
  · rw [if_neg hj, if_neg hj]

theorem take_succ_set_last (d : List α) (nr : Nat) (e : α) (hl : nr < d.length) :
    (d.set nr e).take (nr + 1) = d.take nr ++ [e] := by
  rw [List.take_succ, take_set_of_ge d nr e nr (Nat.le_refl _), List.getElem?_set,
    if_pos rfl, if_pos hl]
  rfl

theorem push_live_multiset (d : List α) (nr : Nat) (e : α) (hl : nr < d.length) :
    (↑((d.set nr e).take (nr + 1)) : Multiset α) = e ::ₘ ↑(d.take nr) := by
  rw [take_succ_set_last d nr e hl, Multiset.cons_coe]
  exact Multiset.coe_eq_coe.mpr (List.perm_append_singleton e _)

theorem take_head_multiset (d : List α) (nr : Nat) (h0 : 0 < nr) (hl : nr ≤ d.length) :
    (↑(d.take nr) : Multiset α) = d.getD 0 default ::ₘ ↑(d.tail.take (nr - 1)) := by
  cases d with
  | nil => simp at hl; omega
  | cons a t =>
    cases nr with
    | zero => omega
    | succ m =>
      simp [List.take_succ_cons, List.getD_cons_zero, Multiset.cons_coe]

theorem take_set_zero_multiset (d : List α) (x : α) (nr : Nat) (h0 : 0 < nr)
    (hl : nr ≤ d.length) :
    (↑((d.set 0 x).take nr) : Multiset α) = x ::ₘ ↑(d.tail.take (nr - 1)) := by
  cases d with
  | nil => simp at hl; omega
  | cons a t =>
    cases nr with
    | zero => omega
    | succ m =>
      simp [List.set_cons_zero, List.take_succ_cons, Multiset.cons_coe]

theorem pop_tail_multiset (d : List α) (nr : Nat) (h0 : 0 < nr) (hl : nr ≤ d.length) :
    (↑((d.set 0 (d.getD (nr - 1) default)).take (nr - 1)) : Multiset α) =
      ↑(d.tail.take (nr - 1)) := by
  cases d with
  | nil => simp at hl; omega
  | cons a t =>
    cases hm : nr - 1 with
    | zero => simp [List.set_cons_zero]
    | succ m =>
      have hmt : m < t.length := by
        simp only [List.length_cons] at hl; omega
      simp only [List.set_cons_zero, List.tail_cons]
      rw [List.getD_cons_succ, List.take_succ_cons]
      refine Multiset.coe_eq_coe.mpr ?_
      have h1 : t.take (m + 1) = t.take m ++ [t.getD m default] := by
        rw [List.take_succ, List.getElem?_eq_getElem hmt,
          List.getD_eq_getElem t default hmt]
        rfl
      rw [h1]
      exact (List.perm_append_singleton _ _).symm

theorem mem_take_getD (d : List α) (nr : Nat) (hl : nr ≤ d.length) (x : α)
    (hx : x ∈ d.take nr) : ∃ j, j < nr ∧ d.getD j default = x := by
  obtain ⟨j, hj, he⟩ := List.getElem_of_mem hx
  have hjn : j < nr := by
    rw [List.length_take] at hj; omega
  have hjd : j < d.length := by omega
  refine ⟨j, hjn, ?_⟩
  rw [List.getD_eq_getElem d default hjd, ← he]
  have : (d.take nr)[j]? = d[j]? := by
    rw [List.getElem?_take, if_pos hjn]
  rw [List.getElem?_eq_getElem hj, List.getElem?_eq_getElem hjd] at this
  exact (Option.some_injective _ this).symm

end LiveMultiset

/-! ### State-level specifications of the four operations -/

section Ops

variable {α : Type} [Inhabited α]

theorem min_heapify_zero (less : α → α → Bool) (data : List α) :
    min_heapify less data 0 0 = data := rfl

/-- Length and live-prefix permutation of a root repair, valid also for an
empty live region. -/
theorem min_heapify_root_len_perm (less : α → α → Bool) (data : List α) (nr : Nat)
    (hl : nr ≤ data.length) :
    (min_heapify less data nr 0).length = data.length ∧
    List.Perm ((min_heapify less data nr 0).take nr) (data.take nr) := by
  cases Nat.eq_zero_or_pos nr with
  | inl e =>
    subst e
    rw [min_heapify_zero]
    exact ⟨rfl, List.Perm.refl _⟩
  | inr hpos =>
    obtain ⟨v0, _, _, _, v5⟩ := min_heapify_values less data nr 0 hl hpos
    exact ⟨v0, v5⟩

/-- Heap property restored by a root repair when every pair away from the
root is already ordered (in the child-centric form). -/
theorem min_heapify_root_heapProp (less : α → α → Bool)
    (hirr : ∀ a, less a a = false)
    (htr : ∀ a b c, less a b = true → less b c = true → less a c = true)
    (data : List α) (nr : Nat) (hl : nr ≤ data.length)
    (pre : ∀ c, 0 < c → c < nr → hpar c ≠ 0 →
      less (data.getD c default) (data.getD (hpar c) default) = false) :
    heapProp less (min_heapify less data nr 0) nr := by
  cases Nat.eq_zero_or_pos nr with
  | inl e => subst e; exact heapProp_zero less _
  | inr hpos =>
    refine (heapProp_iff_subHeap_zero less _ nr).mpr ?_
    exact min_heapify_subHeap less hirr htr data nr 0 hl hpos
      (fun c hc0 hcnr _ hne => pre c hc0 hcnr hne)

/-- Full state-level specification of `__min_heap_pop` on a valid call. -/
theorem min_heap_pop_spec (less : α → α → Bool)
    (hirr : ∀ a, less a a = false)
    (htr : ∀ a b c, less a b = true → less b c = true → less a c = true)
    (h : MinHeap α) (hwf : wfH h) (hval : 0 < h.nr)
    (hhp : heapProp less h.data h.nr) :
    (min_heap_pop less h).nr = h.nr - 1 ∧
    (min_heap_pop less h).size = h.size ∧
    (min_heap_pop less h).data.length = h.data.length ∧
    wfH (min_heap_pop less h) ∧
    heapProp less (min_heap_pop less h).data (h.nr - 1) ∧
    liveM (min_heap_pop less h) = ↑(h.data.tail.take (h.nr - 1)) := by
  obtain ⟨hlen, hsz⟩ := hwf
  have hnrlen : h.nr ≤ h.data.length := by omega
  rw [min_heap_pop, if_neg (by omega)]
  have hsetlen : (h.data.set 0 (h.data.getD (h.nr - 1) default)).length =
      h.data.length := List.length_set _ _ _
  obtain ⟨p1, p2⟩ := min_heapify_root_len_perm less
    (h.data.set 0 (h.data.getD (h.nr - 1) default)) (h.nr - 1) (by omega)
  have hpre : ∀ c, 0 < c → c < h.nr - 1 → hpar c ≠ 0 →
      less ((h.data.set 0 (h.data.getD (h.nr - 1) default)).getD c default)
        ((h.data.set 0 (h.data.getD (h.nr - 1) default)).getD (hpar c) default) =
          false := by
    intro c hc0 hcnr hne
    rw [getD_set, if_neg (by omega), getD_set, if_neg (by
      intro hh
      have := hpar_lt hc0
      omega)]
    exact (heapProp_iff_child less h.data h.nr).mp hhp c hc0 (by omega)
  have hhp' := min_heapify_root_heapProp less hirr htr
    (h.data.set 0 (h.data.getD (h.nr - 1) default)) (h.nr - 1) (by omega) hpre
  refine ⟨rfl, rfl, by rw [p1, hsetlen], ⟨?_, ?_⟩, hhp', ?_⟩
  · show (min_heapify less (h.data.set 0 (h.data.getD (h.nr - 1) default))
        (h.nr - 1) 0).length = h.size
    rw [p1, hsetlen, hlen]
  · show h.nr - 1 ≤ h.size
    omega
  · show (↑(List.take (h.nr - 1)
        (min_heapify less (h.data.set 0 (h.data.getD (h.nr - 1) default))
          (h.nr - 1) 0)) : Multiset α) = _
    rw [Multiset.coe_eq_coe.mpr p2]
    exact pop_tail_multiset h.data h.nr hval hnrlen

/-- Full state-level specification of `__min_heap_push` on a valid call. -/
theorem min_heap_push_spec (less : α → α → Bool)
    (hirr : ∀ a, less a a = false)
    (htr : ∀ a b c, less a b = true → less b c = true → less a c = true)
    (hneg : ∀ a b c, less a b = false → less b c = false → less a c = false)
    (h : MinHeap α) (e : α) (hwf : wfH h) (hval : h.nr < h.size)
    (hhp : heapProp less h.data h.nr) :
    (min_heap_push less h e).nr = h.nr + 1 ∧
    (min_heap_push less h e).size = h.size ∧
    (min_heap_push less h e).data.length = h.data.length ∧
    wfH (min_heap_push less h e) ∧
    heapProp less (min_heap_push less h e).data (h.nr + 1) ∧
    liveM (min_heap_push less h e) = e ::ₘ liveM h := by
  obtain ⟨hlen, hsz⟩ := hwf
  have hnrlen : h.nr < h.data.length := by omega
  rw [min_heap_push, if_neg (by omega)]
  have hd0len : (h.data.set h.nr e).length = h.data.length := List.length_set _ _ _
  have hi : ∀ c, 0 < c → c < h.nr + 1 → c ≠ h.nr →
      less ((h.data.set h.nr e).getD c default)
        ((h.data.set h.nr e).getD (hpar c) default) = false := by
    intro c hc0 hcnr hcne
    rw [getD_set, if_neg (by omega), getD_set, if_neg (by
      intro hh
      have := hpar_lt hc0
      omega)]
    exact (heapProp_iff_child less h.data h.nr).mp hhp c hc0 (by omega)
  have hii : ∀ c, c < h.nr + 1 → (c = 2 * h.nr + 1 ∨ c = 2 * h.nr + 2) →
      less ((h.data.set h.nr e).getD c default)
        ((h.data.set h.nr e).getD (hpar h.nr) default) = false := by
    intro c hcN hc
    rcases hc with e1 | e1 <;> omega
  obtain ⟨g1, g2, g3, g4⟩ := siftUpGo_spec less hirr htr hneg (h.nr + 1) (h.nr + 1)
    h.nr (h.data.set h.nr e) (by omega) (by omega) (by omega) hi hii
  refine ⟨rfl, rfl, by rw [g2, hd0len], ⟨?_, ?_⟩,
    (heapProp_iff_child less _ _).mpr g1, ?_⟩
  · show (siftUpGo less (h.nr + 1) h.nr (h.data.set h.nr e)).length = h.size
    rw [g2, hd0len, hlen]
  · show h.nr + 1 ≤ h.size
    omega
  · show (↑(List.take (h.nr + 1)
        (siftUpGo less (h.nr + 1) h.nr (h.data.set h.nr e))) : Multiset α) = _
    rw [Multiset.coe_eq_coe.mpr g3]
    exact push_live_multiset h.data h.nr e hnrlen

/-- Full state-level specification of `__min_heap_pop_push` on a call with
`nr > 0`. -/
theorem min_heap_pop_push_spec (less : α → α → Bool)
    (hirr : ∀ a, less a a = false)
    (htr : ∀ a b c, less a b = true → less b c = true → less a c = true)
    (h : MinHeap α) (e : α) (hwf : wfH h) (hval : 0 < h.nr)
    (hhp : heapProp less h.data h.nr) :
    (min_heap_pop_push less h e).nr = h.nr ∧
    (min_heap_pop_push less h e).size = h.size ∧
    (min_heap_pop_push less h e).data.length = h.data.length ∧
    wfH (min_heap_pop_push less h e) ∧
    heapProp less (min_heap_pop_push less h e).data h.nr ∧
    liveM (min_heap_pop_push less h e) = e ::ₘ ↑(h.data.tail.take (h.nr - 1)) := by
  obtain ⟨hlen, hsz⟩ := hwf
  have hnrlen : h.nr ≤ h.data.length := by omega
  have hsetlen : (h.data.set 0 e).length = h.data.length := List.length_set _ _ _
  obtain ⟨p1, p2⟩ := min_heapify_root_len_perm less (h.data.set 0 e) h.nr (by omega)
  have hpre : ∀ c, 0 < c → c < h.nr → hpar c ≠ 0 →
      less ((h.data.set 0 e).getD c default)
        ((h.data.set 0 e).getD (hpar c) default) = false := by
    intro c hc0 hcnr hne
    rw [getD_set, if_neg (by omega), getD_set, if_neg (by
      intro hh
      have := hpar_lt hc0
      omega)]
    exact (heapProp_iff_child less h.data h.nr).mp hhp c hc0 hcnr
  have hhp' := min_heapify_root_heapProp less hirr htr (h.data.set 0 e) h.nr
    (by omega) hpre
  refine ⟨rfl, rfl, ?_, ⟨?_, ?_⟩, hhp', ?_⟩
  · show (min_heapify less (h.data.set 0 e) h.nr 0).length = h.data.length
    rw [p1, hsetlen]
  · show (min_heapify less (h.data.set 0 e) h.nr 0).length = h.size
    rw [p1, hsetlen, hlen]
  · show h.nr ≤ h.size
    omega
  · show (↑(List.take h.nr (min_heapify less (h.data.set 0 e) h.nr 0)) : Multiset α) = _
    rw [Multiset.coe_eq_coe.mpr p2]
    exact take_set_zero_multiset h.data e h.nr hval hnrlen

/-- The root of a heap is a minimum: no live element compares strictly less
than the element at index 0. -/
theorem heapProp_root_min (less : α → α → Bool)
    (hirr : ∀ a, less a a = false)
    (hneg : ∀ a b c, less a b = false → less b c = false → less a c = false)
    (data : List α) (nr : Nat) (hhp : heapProp less data nr) :
    ∀ j, j < nr → less (data.getD j default) (data.getD 0 default) = false := by
  intro j
  induction j using Nat.strong_induction_on with
  | _ j ih =>
    intro hj
    rcases Nat.eq_zero_or_pos j with e | hpos
    · subst e; exact hirr _
    · have h1 := (heapProp_iff_child less data nr).mp hhp j hpos hj
      have h2 := ih (hpar j) (hpar_lt hpos) (by have := hpar_lt hpos; omega)
      exact hneg _ _ _ h1 h2

end Ops

/-! ### Operation sequences -/

section Sequences

variable {α : Type} [Inhabited α]

/-- One valid operation preserves well-formedness and the heap property. -/
theorem applyOp_preserves (less : α → α → Bool)
    (hirr : ∀ a, less a a = false)
    (htr : ∀ a b c, less a b = true → less b c = true → less a c = true)
    (hneg : ∀ a b c, less a b = false → less b c = false → less a c = false)
    (h : MinHeap α) (op : HeapOp α)
    (hwf : wfH h) (hhp : heapProp less h.data h.nr) (hv : validOp h op = true) :
    wfH (applyOp less h op) ∧
    heapProp less (applyOp less h op).data (applyOp less h op).nr := by
  cases op with
  | push e =>
    have hval : h.nr < h.size := by simpa [validOp] using hv
    obtain ⟨e1, _, _, w, hp, _⟩ := min_heap_push_spec less hirr htr hneg h e hwf hval hhp
    exact ⟨w, by simp only [applyOp]; rw [e1]; exact hp⟩
  | pop =>
    have hval : 0 < h.nr := by simpa [validOp] using hv
    obtain ⟨e1, _, _, w, hp, _⟩ := min_heap_pop_spec less hirr htr h hwf hval hhp
    exact ⟨w, by simp only [applyOp]; rw [e1]; exact hp⟩
  | pop_push e =>
    have hval : 0 < h.nr := by simpa [validOp] using hv
    obtain ⟨e1, _, _, w, hp, _⟩ := min_heap_pop_push_spec less hirr htr h e hwf hval hhp
    exact ⟨w, by simp only [applyOp]; rw [e1]; exact hp⟩
  | heapify_all =>
    obtain ⟨hp, l, _, _⟩ := min_heapify_all_spec less hirr htr h.data h.nr
      (by rw [hwf.1]; exact hwf.2)
    refine ⟨⟨?_, hwf.2⟩, hp⟩
    show (min_heapify_all less h.data h.nr).length = h.size
    rw [l, hwf.1]

/-- Validity of a sequence restricts to validity of each prefix. -/
theorem seqValid_take (less : α → α → Bool) :
    ∀ (ops : List (HeapOp α)) (h : MinHeap α) (k : Nat),
      seqValid less h ops = true → seqValid less h (ops.take k) = true := by
  intro ops
  induction ops with
  | nil => intro h k _; rw [List.take_nil]; rfl
  | cons op rest ih =>
    intro h k hv
    cases k with
    | zero => rfl
    | succ k =>
      rw [seqValid] at hv
      obtain ⟨h1, h2⟩ := Bool.and_eq_true_iff.mp hv
      rw [List.take_succ_cons, seqValid, Bool.and_eq_true_iff]
      exact ⟨h1, ih _ k h2⟩

/-- A whole valid sequence preserves well-formedness and the heap property. -/
theorem applySeq_preserves (less : α → α → Bool)
    (hirr : ∀ a, less a a = false)
    (htr : ∀ a b c, less a b = true → less b c = true → less a c = true)
    (hneg : ∀ a b c, less a b = false → less b c = false → less a c = false) :
    ∀ (ops : List (HeapOp α)) (h : MinHeap α), wfH h → heapProp less h.data h.nr →
      seqValid less h ops = true →
      wfH (applySeq less h ops) ∧
      heapProp less (applySeq less h ops).data (applySeq less h ops).nr := by
  intro ops
  induction ops with
  | nil => intro h hwf hhp _; exact ⟨hwf, hhp⟩
  | cons op rest ih =>
    intro h hwf hhp hv
    rw [seqValid] at hv
    obtain ⟨hv1, hv2⟩ := Bool.and_eq_true_iff.mp hv
    obtain ⟨w, hp⟩ := applyOp_preserves less hirr htr hneg h op hwf hhp hv1
    exact ih (applyOp less h op) w hp hv2

end Sequences

/-! ### Extraction sequences -/

section Extraction

variable {α : Type} [Inhabited α]

theorem getD_mem_take (d : List α) (nr j : Nat) (hj : j < nr) (hl : nr ≤ d.length) :
    d.getD j default ∈ d.take nr := by
  have hjd : j < d.length := by omega
  have hjt : j < (d.take nr).length := by rw [List.length_take]; omega
  have e : (d.take nr)[j] = d[j] := by
    have h1 : (d.take nr)[j]? = d[j]? := by rw [List.getElem?_take, if_pos hj]
    rw [List.getElem?_eq_getElem hjt, List.getElem?_eq_getElem hjd] at h1
    exact Option.some_injective _ h1
  rw [List.getD_eq_getElem d default hjd, ← e]
  exact List.getElem_mem _

/-- Every extracted element is one of the live elements of the starting
state. -/
theorem extractSeq_mem (less : α → α → Bool)
    (hirr : ∀ a, less a a = false)
    (htr : ∀ a b c, less a b = true → less b c = true → less a c = true) :
    ∀ (n : Nat) (h : MinHeap α), wfH h → heapProp less h.data h.nr → n ≤ h.nr →
      ∀ x ∈ extractSeq less h n, x ∈ h.data.take h.nr := by
  intro n
  induction n with
  | zero => intro h _ _ _ x hx; rw [extractSeq] at hx; cases hx
  | succ n ih =>
    intro h hwf hhp hn x hx
    have hval : 0 < h.nr := by omega
    obtain ⟨e1, _, _, w, hp, lm⟩ := min_heap_pop_spec less hirr htr h hwf hval hhp
    rw [extractSeq] at hx
    rcases List.mem_cons.mp hx with e | hx2
    · subst e
      exact getD_mem_take h.data h.nr 0 hval (by rw [hwf.1]; exact hwf.2)
    · have hp' : heapProp less (min_heap_pop less h).data (min_heap_pop less h).nr := by
        rw [e1]; exact hp
      have hx3 := ih (min_heap_pop less h) w hp' (by omega) x hx2
      have hx4 : x ∈ liveM (min_heap_pop less h) := Multiset.mem_coe.mpr hx3
      rw [lm] at hx4
      have hx5 : x ∈ liveM h := by
        rw [show liveM h = (↑(h.data.take h.nr) : Multiset α) from rfl,
          take_head_multiset h.data h.nr hval (by rw [hwf.1]; exact hwf.2)]
        exact Multiset.mem_cons_of_mem hx4
      exact Multiset.mem_coe.mp hx5

/-- Extracting everything enumerates exactly the live multiset. -/
theorem extractSeq_multiset (less : α → α → Bool)
    (hirr : ∀ a, less a a = false)
    (htr : ∀ a b c, less a b = true → less b c = true → less a c = true) :
    ∀ (n : Nat) (h : MinHeap α), wfH h → heapProp less h.data h.nr → n = h.nr →
      (↑(extractSeq less h n) : Multiset α) = liveM h := by
  intro n
  induction n with
  | zero =>
    intro h _ _ he
    rw [extractSeq]
    show (0 : Multiset α) = liveM h
    rw [show liveM h = (↑(h.data.take h.nr) : Multiset α) from rfl, ← he]
    rfl
  | succ n ih =>
    intro h hwf hhp he
    have hval : 0 < h.nr := by omega
    obtain ⟨e1, _, _, w, hp, lm⟩ := min_heap_pop_spec less hirr htr h hwf hval hhp
    have hp' : heapProp less (min_heap_pop less h).data (min_heap_pop less h).nr := by
      rw [e1]; exact hp
    have he' : n = (min_heap_pop less h).nr := by rw [e1]; omega
    have hrec := ih (min_heap_pop less h) w hp' he'
    rw [extractSeq, ← Multiset.cons_coe, hrec, lm,
      show liveM h = (↑(h.data.take h.nr) : Multiset α) from rfl,
      take_head_multiset h.data h.nr hval (by rw [hwf.1]; exact hwf.2)]

/-- The extraction sequence is non-decreasing: no later read compares
strictly less than an earlier one. -/
theorem extractSeq_pairwise (less : α → α → Bool)
    (hirr : ∀ a, less a a = false)
    (htr : ∀ a b c, less a b = true → less b c = true → less a c = true)
    (hneg : ∀ a b c, less a b = false → less b c = false → less a c = false) :
    ∀ (n : Nat) (h : MinHeap α), wfH h → heapProp less h.data h.nr → n ≤ h.nr →
      List.Pairwise (fun a b => less b a = false) (extractSeq less h n) := by
  intro n
  induction n with
  | zero => intro h _ _ _; rw [extractSeq]; exact List.Pairwise.nil
  | succ n ih =>
    intro h hwf hhp hn
    have hval : 0 < h.nr := by omega
    obtain ⟨e1, _, _, w, hp, _⟩ := min_heap_pop_spec less hirr htr h hwf hval hhp
    have hp' : heapProp less (min_heap_pop less h).data (min_heap_pop less h).nr := by
      rw [e1]; exact hp
    rw [extractSeq]
    refine List.Pairwise.cons ?_ (ih (min_heap_pop less h) w hp' (by omega))
    intro x hx
    have hx3 : x ∈ h.data.take h.nr :=
      extractSeq_mem less hirr htr (n + 1) h hwf hhp hn x
        (by rw [extractSeq]; exact List.mem_cons_of_mem _ hx)
    obtain ⟨j, hj, hje⟩ := mem_take_getD h.data h.nr (by rw [hwf.1]; exact hwf.2) x hx3
    rw [← hje]
    exact heapProp_root_min less hirr hneg h.data h.nr hhp j hj

/-- Pushing a list of elements one at a time onto a valid heap. -/
theorem pushList_spec (less : α → α → Bool)
    (hirr : ∀ a, less a a = false)
    (htr : ∀ a b c, less a b = true → less b c = true → less a c = true)
    (hneg : ∀ a b c, less a b = false → less b c = false → less a c = false) :
    ∀ (es : List α) (h : MinHeap α), wfH h → heapProp less h.data h.nr →
      h.nr + es.length ≤ h.size →
      wfH (pushList less h es) ∧
      heapProp less (pushList less h es).data (pushList less h es).nr ∧
      (pushList less h es).nr = h.nr + es.length ∧
      (pushList less h es).size = h.size ∧
      liveM (pushList less h es) = ↑es + liveM h := by
  intro es
  induction es with
  | nil =>
    intro h hwf hhp _
    refine ⟨hwf, hhp, by show h.nr = h.nr + [].length; rw [List.length_nil]; omega, rfl, ?_⟩
    show liveM h = ↑([] : List α) + liveM h
    rw [Multiset.coe_nil, zero_add]
  | cons e rest ih =>
    intro h hwf hhp hsz
    have hval : h.nr < h.size := by
      rw [List.length_cons] at hsz; omega
    obtain ⟨e1, e2, _, w, hp, lm⟩ := min_heap_push_spec less hirr htr hneg h e hwf hval hhp
    have hp' : heapProp less (min_heap_push less h e).data (min_heap_push less h e).nr := by
      rw [e1]; exact hp
    obtain ⟨w2, hp2, n2, s2, lm2⟩ := ih (min_heap_push less h e) w hp'
      (by rw [e1, e2, List.length_cons] at *; omega)
    refine ⟨w2, hp2, ?_, ?_, ?_⟩
    · show (pushList less (min_heap_push less h e) rest).nr = h.nr + (e :: rest).length
      rw [n2, e1, List.length_cons]; omega
    · show (pushList less (min_heap_push less h e) rest).size = h.size
      rw [s2, e2]
    · show liveM (pushList less (min_heap_push less h e) rest) = ↑(e :: rest) + liveM h
      rw [lm2, lm, ← Multiset.cons_coe, Multiset.cons_add, Multiset.add_cons]

end Extraction

/-! ### Frame facts (no ordering assumptions) -/

section Frames

variable {α : Type} [Inhabited α]

/-- `__min_heapify` never touches a slot at or beyond `nr`. -/
theorem min_heapify_frame_ge (less : α → α → Bool) (data : List α) (nr pos : Nat)
    (hl : nr ≤ data.length) (hp : pos < nr) :
    ∀ x, nr ≤ x → (min_heapify less data nr pos).getD x default = data.getD x default := by
  intro x hx
  obtain ⟨_, b2, _, _, b5⟩ := heapifyPath_bounds less data nr pos hp
  obtain ⟨_, _, _, v3, _⟩ := min_heapify_values less data nr pos hl hp
  refine v3 x ?_
  rintro ⟨_, hxf⟩
  have h1 := hxf.le
  have h2 := b5.le
  omega

/-- Order-free part of the `__min_heapify_all` loop: length, live prefix
permutation, and untouched slots beyond `nr`. -/
theorem heapifyAllGo_frame (less : α → α → Bool) (nr : Nat) :
    ∀ k (data : List α), nr ≤ data.length → 2 * k ≤ nr →
      (heapifyAllGo less data nr k).length = data.length ∧
      List.Perm ((heapifyAllGo less data nr k).take nr) (data.take nr) ∧
      (∀ x, nr ≤ x →
        (heapifyAllGo less data nr k).getD x default = data.getD x default) := by
  intro k
  induction k with
  | zero => intro data _ _; exact ⟨rfl, List.Perm.refl _, fun _ _ => rfl⟩
  | succ k ih =>
    intro data hlen hk
    have hknr : k < nr := by omega
    obtain ⟨v0, _, _, _, v5⟩ := min_heapify_values less data nr k hlen hknr
    rw [heapifyAllGo]
    obtain ⟨g1, g2, g3⟩ := ih (min_heapify less data nr k) (by omega) (by omega)
    refine ⟨g1.trans v0, g2.trans v5, ?_⟩
    intro x hx
    rw [g3 x hx]
    exact min_heapify_frame_ge less data nr k hlen hknr x hx

theorem min_heapify_all_frame (less : α → α → Bool) (data : List α) (nr : Nat)
    (hlen : nr ≤ data.length) :
    (min_heapify_all less data nr).length = data.length ∧
    List.Perm ((min_heapify_all less data nr).take nr) (data.take nr) ∧
    (∀ x, nr ≤ x →
      (min_heapify_all less data nr).getD x default = data.getD x default) :=
  heapifyAllGo_frame less nr (nr / 2) data hlen (by omega)

end Frames

/-! ### The instrumented loops compute the same results, and their counts -/

section Counts

variable {α : Type} [Inhabited α]

theorem depthGo_congr : ∀ f1 f2 i, i < f1 → i < f2 → depthGo f1 i = depthGo f2 i := by
  intro f1
  induction f1 with
  | zero => intro f2 i h1; omega
  | succ f1 ih =>
    intro f2 i h1 h2
    cases f2 with
    | zero => omega
    | succ f2 =>
      rcases Nat.eq_zero_or_pos i with e | hpos
      · subst e; rw [depthGo, depthGo, if_pos rfl, if_pos rfl]
      · rw [depthGo, depthGo, if_neg (by omega), if_neg (by omega)]
        have := hpar_lt hpos
        rw [show (i - 1) / 2 = hpar i from rfl,
          ih f2 (hpar i) (by omega) (by omega)]

theorem depth_succ {i : Nat} (hpos : 0 < i) : depth i = depth (hpar i) + 1 := by
  unfold depth
  rw [depthGo, if_neg (by omega), show (i - 1) / 2 = hpar i from rfl]
  have := hpar_lt hpos
  rw [depthGo_congr i (hpar i + 1) (hpar i) (by omega) (by omega)]

theorem depth_left (i : Nat) : depth (2 * i + 1) = depth i + 1 := by
  rw [depth_succ (by omega), hpar_left]

theorem depth_right (i : Nat) : depth (2 * i + 2) = depth i + 1 := by
  rw [depth_succ (by omega), hpar_right]

/-- The instrumented descent computes the same endpoint and makes exactly
one `less` call per level it descends. -/
theorem dPathGoC_spec (less : α → α → Bool) (data : List α) (nr : Nat) :
    ∀ fuel i,
      (dPathGoC less data nr fuel i).1 = dPathGo less data nr fuel i ∧
      (dPathGoC less data nr fuel i).2 + depth i = depth (dPathGo less data nr fuel i) := by
  intro fuel
  induction fuel with
  | zero =>
    intro i
    refine ⟨rfl, ?_⟩
    show 0 + depth i = depth i
    omega
  | succ fuel ih =>
    intro i
    by_cases hstop : nr ≤ i * 2 + 2
    · rw [dPathGoC, dPathGo, if_pos hstop, if_pos hstop]
      refine ⟨rfl, ?_⟩
      show 0 + depth i = depth i
      omega
    · rw [dPathGoC, dPathGo, if_neg hstop, if_neg hstop]
      by_cases hlr :
        less (data.getD (i * 2 + 1) default) (data.getD (i * 2 + 2) default) = true
      · rw [if_pos hlr]
        obtain ⟨h1, h2⟩ := ih (i * 2 + 1)
        refine ⟨h1, ?_⟩
        have e1 : depth (i * 2 + 1) = depth i + 1 := by
          rw [show i * 2 + 1 = 2 * i + 1 from by omega, depth_left]
        show (dPathGoC less data nr fuel (i * 2 + 1)).2 + 1 + depth i =
          depth (dPathGo less data nr fuel (i * 2 + 1))
        omega
      · rw [if_neg hlr]
        obtain ⟨h1, h2⟩ := ih (i * 2 + 2)
        refine ⟨h1, ?_⟩
        have e1 : depth (i * 2 + 2) = depth i + 1 := by
          rw [show i * 2 + 2 = 2 * i + 2 from by omega, depth_right]
        show (dPathGoC less data nr fuel (i * 2 + 2)).2 + 1 + depth i =
          depth (dPathGo less data nr fuel (i * 2 + 2))
        omega

/-- The instrumented backtrack loop computes the same resting index. -/
theorem backtrackGoC_fst (less : α → α → Bool) (root : α) (data : List α) (pos : Nat) :
    ∀ fuel i, (backtrackGoC less root data pos fuel i).1 =
      backtrackGo less root data pos fuel i := by
  intro fuel
  induction fuel with
  | zero => intro i; rfl
  | succ fuel ih =>
    intro i
    by_cases hip : i = pos
    · rw [backtrackGoC, backtrackGo, if_pos hip,
        if_neg (show ¬(i ≠ pos ∧ less root (data.getD i default) = true) from
          fun hh => hh.1 hip)]
    · rw [backtrackGoC, backtrackGo, if_neg hip]
      by_cases hlr : less root (data.getD i default) = true
      · rw [if_pos hlr, if_pos ⟨hip, hlr⟩]
        exact ih (hpar i)
      · rw [if_neg hlr, if_neg (fun hh => hlr hh.2)]

/-- The instrumented shift loop computes the same buffer and makes exactly
one `swp` call per level it climbs. -/
theorem shiftGoC_spec (pos j : Nat) :
    ∀ fuel i (data : List α),
      (shiftGoC pos j fuel i data).1 = shiftGo pos j fuel i data ∧
      (i < fuel → Anc pos i →
        (shiftGoC pos j fuel i data).2 + depth pos = depth i) := by
  intro fuel
  induction fuel with
  | zero => intro i data; exact ⟨rfl, by omega⟩
  | succ fuel ih =>
    intro i data
    by_cases hip : i = pos
    · rw [shiftGoC, shiftGo, if_pos hip, if_pos hip]
      refine ⟨rfl, fun _ _ => ?_⟩
      show 0 + depth pos = depth i
      rw [hip]
      omega
    · rw [shiftGoC, shiftGo, if_neg hip, if_neg hip]
      obtain ⟨h1, h2⟩ := ih (hpar i) (listSwap data (hpar i) j)
      refine ⟨h1, ?_⟩
      intro hfuel hanc
      have hpos : 0 < i := hanc.pos_of_ne hip
      have hplt : hpar i < i := hpar_lt hpos
      have := h2 (by omega) (hanc.parentStep hip)
      show (shiftGoC pos j fuel (hpar i) (listSwap data (hpar i) j)).2 + 1 + depth pos =
        depth i
      rw [depth_succ hpos]
      omega

theorem dPathC_fst (less : α → α → Bool) (data : List α) (nr pos : Nat) :
    (dPathC less data nr pos).1 = dPath less data nr pos :=
  (dPathGoC_spec less data nr nr pos).1

/-- One `less` call per level descended by the descent loop. -/
theorem dPathC_count (less : α → α → Bool) (data : List α) (nr pos : Nat) :
    (dPathC less data nr pos).2 + depth pos = depth (dPath less data nr pos) :=
  (dPathGoC_spec less data nr nr pos).2

theorem shiftGoC_fst (pos j fuel i : Nat) (data : List α) :
    (shiftGoC pos j fuel i data).1 = shiftGo pos j fuel i data :=
  (shiftGoC_spec pos j fuel i data).1

/-- The instrumented `__min_heapify` computes the same buffer as the plain
one. -/
theorem min_heapifyC_fst (less : α → α → Bool) (data : List α) (nr pos : Nat) :
    (min_heapifyC less data nr pos).1 = min_heapify less data nr pos := by
  simp only [min_heapifyC, min_heapify, dPathC_fst, backtrackGoC_fst, shiftGoC_fst,
    backtrack, shiftLoop, dPath]

/-- The instrumented counters of `__min_heapify` are those of the descent
loop and of the shift loop started at the resting index. -/
theorem min_heapifyC_counts (less : α → α → Bool) (data : List α) (nr pos : Nat) :
    (min_heapifyC less data nr pos).2.1 = (dPathC less data nr pos).2 ∧
    (min_heapifyC less data nr pos).2.2.2 =
      (shiftGoC pos (heapifyDest less data nr pos) (heapifyDest less data nr pos + 1)
        (heapifyDest less data nr pos) data).2 := by
  constructor
  · rfl
  · simp only [min_heapifyC, dPathC_fst, backtrackGoC_fst, heapifyDest, backtrack,
      heapifySpecialStep, dPath]

end Counts

/-! ### The specification claims -/

section Claims

variable {α : Type} [Inhabited α]

/-- Claim C1: for every sequence of valid operations (`push` when
`nr < size`, `pop` when `nr > 0`, `pop_push` when `nr > 0`, `heapify_all`
on any arrangement) starting from a well-formed state satisfying the heap
property, after each call completes the heap property holds over the first
`nr` elements.  The caller-supplied order is assumed to be a strict weak
order, as a boolean predicate: irreflexive, transitive and with transitive
complement. -/
theorem claim_C1 (less : α → α → Bool)
    (hirr : ∀ a, less a a = false)
    (htr : ∀ a b c, less a b = true → less b c = true → less a c = true)
    (hneg : ∀ a b c, less a b = false → less b c = false → less a c = false)
    (h : MinHeap α) (ops : List (HeapOp α))
    (hwf : wfH h) (hhp : heapProp less h.data h.nr)
    (hval : seqValid less h ops = true) :
    ∀ k, heapProp less (applySeq less h (ops.take k)).data
      (applySeq less h (ops.take k)).nr :=
  fun k => (applySeq_preserves less hirr htr hneg (ops.take k) h hwf hhp
    (seqValid_take less ops h k hval)).2

theorem claim_C1_witness :
    (wfH (⟨[0, 0, 0, 0], 0, 4⟩ : MinHeap Int) ∧
      heapProp intLess ([0, 0, 0, 0] : List Int) 0 ∧
      seqValid intLess (⟨[0, 0, 0, 0], 0, 4⟩ : MinHeap Int)
        [HeapOp.push 3, HeapOp.push 1, HeapOp.push 2, HeapOp.pop,
          HeapOp.pop_push 5, HeapOp.heapify_all] = true) ∧
    ∀ k, heapProp intLess
      (applySeq intLess (⟨[0, 0, 0, 0], 0, 4⟩ : MinHeap Int)
        (List.take k [HeapOp.push 3, HeapOp.push 1, HeapOp.push 2, HeapOp.pop,
          HeapOp.pop_push 5, HeapOp.heapify_all])).data
      (applySeq intLess (⟨[0, 0, 0, 0], 0, 4⟩ : MinHeap Int)
        (List.take k [HeapOp.push 3, HeapOp.push 1, HeapOp.push 2, HeapOp.pop,
          HeapOp.pop_push 5, HeapOp.heapify_all])).nr :=
  ⟨⟨by decide, by decide, by decide⟩,
    claim_C1 intLess intLess_irrefl intLess_trans intLess_negtrans
      (⟨[0, 0, 0, 0], 0, 4⟩ : MinHeap Int)
      [HeapOp.push 3, HeapOp.push 1, HeapOp.push 2, HeapOp.pop,
        HeapOp.pop_push 5, HeapOp.heapify_all]
      (by decide) (by decide) (by decide)⟩

/-- Claim C2 as stated is false: on the heap `[1, 2, 3]` (a valid min-heap
with `nr = 3`) and element `5`, `pop_push` produces the buffer `[2, 5, 3]`
while `pop` followed by `push 5` produces `[2, 3, 5]`; both leave `nr = 3`
but the first `nr` slots differ element by element. -/
theorem claim_C2_counterexample :
    wfH (⟨[1, 2, 3], 3, 3⟩ : MinHeap Int) ∧
    heapProp intLess ([1, 2, 3] : List Int) 3 ∧
    (min_heap_pop_push intLess (⟨[1, 2, 3], 3, 3⟩ : MinHeap Int) 5).nr = 3 ∧
    (min_heap_push intLess (min_heap_pop intLess (⟨[1, 2, 3], 3, 3⟩ : MinHeap Int)) 5).nr
      = 3 ∧
    ¬ ((min_heap_pop_push intLess (⟨[1, 2, 3], 3, 3⟩ : MinHeap Int) 5).data.take 3 =
      (min_heap_push intLess (min_heap_pop intLess
        (⟨[1, 2, 3], 3, 3⟩ : MinHeap Int)) 5).data.take 3) := by
  decide

/-- Claim C2, amended: for every well-formed heap state with `nr > 0`
satisfying the heap property and every element, `pop_push(element)` and
`pop` followed by `push(element)` leave the same `nr` and the same multiset
of live elements (the old minimum removed, `element` inserted); the
slot-by-slot buffer contents may differ, as the counterexample shows. -/
theorem claim_C2 (less : α → α → Bool)
    (hirr : ∀ a, less a a = false)
    (htr : ∀ a b c, less a b = true → less b c = true → less a c = true)
    (hneg : ∀ a b c, less a b = false → less b c = false → less a c = false)
    (h : MinHeap α) (e : α)
    (hwf : wfH h) (hval : 0 < h.nr) (hhp : heapProp less h.data h.nr) :
    (min_heap_pop_push less h e).nr = (min_heap_push less (min_heap_pop less h) e).nr ∧
    liveM (min_heap_pop_push less h e) =
      liveM (min_heap_push less (min_heap_pop less h) e) := by
  obtain ⟨pn, ps, _, pw, php, plm⟩ := min_heap_pop_spec less hirr htr h hwf hval hhp
  have php' : heapProp less (min_heap_pop less h).data (min_heap_pop less h).nr := by
    rw [pn]; exact php
  have hvp : (min_heap_pop less h).nr < (min_heap_pop less h).size := by
    rw [pn, ps]; have := hwf.2; omega
  obtain ⟨qn, _, _, _, _, qlm⟩ :=
    min_heap_push_spec less hirr htr hneg (min_heap_pop less h) e pw hvp php'
  obtain ⟨rn, _, _, _, _, rlm⟩ := min_heap_pop_push_spec less hirr htr h e hwf hval hhp
  constructor
  · rw [rn, qn, pn]; omega
  · rw [rlm, qlm, plm]

theorem claim_C2_witness :
    (wfH (⟨[1, 2, 4, 7], 3, 4⟩ : MinHeap Int) ∧ 0 < (3 : Nat) ∧
      heapProp intLess ([1, 2, 4, 7] : List Int) 3) ∧
    ((min_heap_pop_push intLess (⟨[1, 2, 4, 7], 3, 4⟩ : MinHeap Int) 9).nr =
      (min_heap_push intLess (min_heap_pop intLess
        (⟨[1, 2, 4, 7], 3, 4⟩ : MinHeap Int)) 9).nr ∧
    liveM (min_heap_pop_push intLess (⟨[1, 2, 4, 7], 3, 4⟩ : MinHeap Int) 9) =
      liveM (min_heap_push intLess (min_heap_pop intLess
        (⟨[1, 2, 4, 7], 3, 4⟩ : MinHeap Int)) 9)) :=
  ⟨⟨by decide, by decide, by decide⟩,
    claim_C2 intLess intLess_irrefl intLess_trans intLess_negtrans
      (⟨[1, 2, 4, 7], 3, 4⟩ : MinHeap Int) 9 (by decide) (by decide) (by decide)⟩

/-- Claim C3: pushing a list of `n` elements (`n ≤ size`) one at a time
into an empty heap and then performing `n` rounds of reading index 0
followed by `pop` yields a sequence that is non-decreasing under `less`:
no read value compares strictly less than any value read before it. -/
theorem claim_C3 (less : α → α → Bool)
    (hirr : ∀ a, less a a = false)
    (htr : ∀ a b c, less a b = true → less b c = true → less a c = true)
    (hneg : ∀ a b c, less a b = false → less b c = false → less a c = false)
    (es : List α) (buf : List α) (hsz : es.length ≤ buf.length) :
    List.Pairwise (fun a b => less b a = false)
      (extractSeq less (pushList less ⟨buf, 0, buf.length⟩ es) es.length) := by
  obtain ⟨w, hp, n1, _, _⟩ := pushList_spec less hirr htr hneg es ⟨buf, 0, buf.length⟩
    ⟨rfl, by show (0 : Nat) ≤ buf.length; omega⟩ (heapProp_zero less _)
    (by show 0 + es.length ≤ buf.length; omega)
  exact extractSeq_pairwise less hirr htr hneg es.length _ w hp (by rw [n1]; omega)

theorem claim_C3_witness :
    ([5, 1, 4, 2] : List Int).length ≤ ([0, 0, 0, 0, 0] : List Int).length ∧
    List.Pairwise (fun a b => intLess b a = false)
      (extractSeq intLess
        (pushList intLess (⟨[0, 0, 0, 0, 0], 0, 5⟩ : MinHeap Int) [5, 1, 4, 2]) 4) :=
  ⟨by decide,
    claim_C3 intLess intLess_irrefl intLess_trans intLess_negtrans
      [5, 1, 4, 2] [0, 0, 0, 0, 0] (by decide)⟩

/-- Claim C4: in a well-formed heap with `nr > 0` satisfying the heap
property, the element at index 0 is a minimum (no live element compares
strictly less than it); a successful `pop` decrements `nr`, copies the
element formerly at the last live index into index 0 and repairs from
position 0 (the state is literally that composition), and the new live
multiset is the old one minus one occurrence of the old element at
index 0. -/
theorem claim_C4 (less : α → α → Bool) [DecidableEq α]
    (hirr : ∀ a, less a a = false)
    (htr : ∀ a b c, less a b = true → less b c = true → less a c = true)
    (hneg : ∀ a b c, less a b = false → less b c = false → less a c = false)
    (h : MinHeap α) (hwf : wfH h) (hval : 0 < h.nr)
    (hhp : heapProp less h.data h.nr) :
    (∀ x ∈ liveM h, less x (h.data.getD 0 default) = false) ∧
    (min_heap_pop less h).nr = h.nr - 1 ∧
    min_heap_pop less h =
      ⟨min_heapify less (h.data.set 0 (h.data.getD (h.nr - 1) default)) (h.nr - 1) 0,
        h.nr - 1, h.size⟩ ∧
    liveM (min_heap_pop less h) = (liveM h).erase (h.data.getD 0 default) := by
  obtain ⟨pn, _, _, _, _, plm⟩ := min_heap_pop_spec less hirr htr h hwf hval hhp
  have hnl : h.nr ≤ h.data.length := by rw [hwf.1]; exact hwf.2
  refine ⟨?_, pn, ?_, ?_⟩
  · intro x hx
    obtain ⟨j, hj, he⟩ := mem_take_getD h.data h.nr hnl x (Multiset.mem_coe.mp hx)
    rw [← he]
    exact heapProp_root_min less hirr hneg h.data h.nr hhp j hj
  · rw [min_heap_pop, if_neg (by omega)]
  · rw [plm, show liveM h = (↑(h.data.take h.nr) : Multiset α) from rfl,
      take_head_multiset h.data h.nr hval hnl, Multiset.erase_cons_head]

theorem claim_C4_witness :
    (wfH (⟨[2, 5, 3, 8], 4, 4⟩ : MinHeap Int) ∧ 0 < (4 : Nat) ∧
      heapProp intLess ([2, 5, 3, 8] : List Int) 4) ∧
    ((∀ x ∈ liveM (⟨[2, 5, 3, 8], 4, 4⟩ : MinHeap Int),
        intLess x (([2, 5, 3, 8] : List Int).getD 0 default) = false) ∧
    (min_heap_pop intLess (⟨[2, 5, 3, 8], 4, 4⟩ : MinHeap Int)).nr = 3 ∧
    min_heap_pop intLess (⟨[2, 5, 3, 8], 4, 4⟩ : MinHeap Int) =
      ⟨min_heapify intLess (([2, 5, 3, 8] : List Int).set 0
        (([2, 5, 3, 8] : List Int).getD 3 default)) 3 0, 3, 4⟩ ∧
    liveM (min_heap_pop intLess (⟨[2, 5, 3, 8], 4, 4⟩ : MinHeap Int)) =
      (liveM (⟨[2, 5, 3, 8], 4, 4⟩ : MinHeap Int)).erase
        (([2, 5, 3, 8] : List Int).getD 0 default)) :=
  ⟨⟨by decide, by decide, by decide⟩,
    claim_C4 intLess intLess_irrefl intLess_trans intLess_negtrans
      (⟨[2, 5, 3, 8], 4, 4⟩ : MinHeap Int) (by decide) (by decide) (by decide)⟩

/-- Claim C5: calling `pop` when `nr = 0` and calling `push` when
`nr = size` leave the heap state (count, capacity and every buffer slot)
entirely unchanged; these are the only two guarded operations, and the
`WARN_ONCE` diagnostic they emit is a side effect outside the state
model. -/
theorem claim_C5 (less : α → α → Bool) (h : MinHeap α) (e : α) :
    (h.nr = 0 → min_heap_pop less h = h) ∧
    (h.nr = h.size → min_heap_push less h e = h) := by
  constructor
  · intro h0
    rw [min_heap_pop, if_pos h0]
  · intro hfull
    rw [min_heap_push, if_pos (by omega)]

theorem claim_C5_witness :
    min_heap_pop intLess (⟨[7, 8], 0, 2⟩ : MinHeap Int) = ⟨[7, 8], 0, 2⟩ ∧
    min_heap_push intLess (⟨[7, 8], 2, 2⟩ : MinHeap Int) 5 = ⟨[7, 8], 2, 2⟩ :=
  ⟨(claim_C5 intLess (⟨[7, 8], 0, 2⟩ : MinHeap Int) 5).1 rfl,
    (claim_C5 intLess (⟨[7, 8], 2, 2⟩ : MinHeap Int) 5).2 rfl⟩

/-- Claim C6: for every arrangement of `n` elements placed directly into
the buffer with `nr = n`, running `heapify_all` and then extracting all `n`
elements (reading index 0 before each pop) yields exactly the same sequence
of values as pushing the same `n` elements (in buffer order) one at a time
into an empty heap of sufficient capacity and extracting all `n` the same
way.  The order is assumed to be a strict total order given as a boolean
predicate (ties are equalities), which is what makes the sorted sequence
value-unique. -/
theorem claim_C6 (less : α → α → Bool)
    (hirr : ∀ a, less a a = false)
    (htr : ∀ a b c, less a b = true → less b c = true → less a c = true)
    (hneg : ∀ a b c, less a b = false → less b c = false → less a c = false)
    (hconn : ∀ a b, less a b = false → less b a = false → a = b)
    (buf buf2 : List α) (n : Nat) (hn : n ≤ buf.length) (hn2 : n ≤ buf2.length) :
    extractSeq less (min_heapify_all_op less ⟨buf, n, buf.length⟩) n =
      extractSeq less (pushList less ⟨buf2, 0, buf2.length⟩ (buf.take n)) n := by
  obtain ⟨hH, hL, hP, _⟩ := min_heapify_all_spec less hirr htr buf n hn
  have hwf1 : wfH (min_heapify_all_op less (⟨buf, n, buf.length⟩ : MinHeap α)) := by
    constructor
    · show (min_heapify_all less buf n).length = buf.length
      exact hL
    · exact hn
  have hhp1 : heapProp less
      (min_heapify_all_op less (⟨buf, n, buf.length⟩ : MinHeap α)).data
      (min_heapify_all_op less (⟨buf, n, buf.length⟩ : MinHeap α)).nr := hH
  have hm1 : (↑(extractSeq less
      (min_heapify_all_op less (⟨buf, n, buf.length⟩ : MinHeap α)) n) : Multiset α) =
      ↑(buf.take n) := by
    rw [extractSeq_multiset less hirr htr n _ hwf1 hhp1 rfl]
    show (↑((min_heapify_all less buf n).take n) : Multiset α) = ↑(buf.take n)
    exact Multiset.coe_eq_coe.mpr hP
  have hpw1 := extractSeq_pairwise less hirr htr hneg n _ hwf1 hhp1 (Nat.le_refl n)
  have hlen_take : (buf.take n).length = n := by rw [List.length_take]; omega
  obtain ⟨w2, hp2, n2, _, lm2⟩ := pushList_spec less hirr htr hneg (buf.take n)
    ⟨buf2, 0, buf2.length⟩ ⟨rfl, by show (0 : Nat) ≤ buf2.length; omega⟩
    (heapProp_zero less _)
    (by show 0 + (buf.take n).length ≤ buf2.length; rw [hlen_take]; omega)
  have hne : n = (pushList less (⟨buf2, 0, buf2.length⟩ : MinHeap α) (buf.take n)).nr := by
    rw [n2, hlen_take]
    show n = 0 + n
    omega
  have hm2 : (↑(extractSeq less
      (pushList less (⟨buf2, 0, buf2.length⟩ : MinHeap α) (buf.take n)) n) : Multiset α) =
      ↑(buf.take n) := by
    rw [extractSeq_multiset less hirr htr n _ w2 hp2 hne, lm2]
    show (↑(buf.take n) : Multiset α) + ↑(buf2.take 0) = ↑(buf.take n)
    rw [List.take_zero, Multiset.coe_nil, add_zero]
  have hpw2 := extractSeq_pairwise less hirr htr hneg n _ w2 hp2 (Nat.le_of_eq hne)
  have hperm := Multiset.coe_eq_coe.mp (hm1.trans hm2.symm)
  haveI : IsAntisymm α (fun a b => less b a = false) :=
    ⟨fun a b h1 h2 => hconn a b h2 h1⟩
  exact List.eq_of_perm_of_sorted hperm hpw1 hpw2

theorem claim_C6_witness :
    (4 ≤ ([9, 2, 7, 4] : List Int).length ∧ 4 ≤ ([0, 0, 0, 0] : List Int).length) ∧
    extractSeq intLess
        (min_heapify_all_op intLess (⟨[9, 2, 7, 4], 4, 4⟩ : MinHeap Int)) 4 =
      extractSeq intLess
        (pushList intLess (⟨[0, 0, 0, 0], 0, 4⟩ : MinHeap Int)
          (([9, 2, 7, 4] : List Int).take 4)) 4 :=
  ⟨⟨by decide, by decide⟩,
    claim_C6 intLess intLess_irrefl intLess_trans intLess_negtrans intLess_conn
      [9, 2, 7, 4] [0, 0, 0, 0] 4 (by decide) (by decide)⟩

/-- Claim C7: for a call of `__min_heapify` at `pos ∈ [0, nr)`, the descent
loop performs exactly one `less` call per level it descends (its `less`
count plus the depth of `pos` equals the depth of the descent endpoint) and
performs no swaps (in the instrumented code the swap counter is fed only by
the shift loop); the shift loop performs exactly one `swp` call per level
from the final resting index back up to `pos` (its count plus the depth of
`pos` equals the depth of the resting index); afterwards the relocated
element sits at the resting index and every intermediate element on the
path has moved up one slot.  The single-child special step, which the
specification describes separately, descends one further level without a
comparison and is not part of the descent loop's count. -/
theorem claim_C7 (less : α → α → Bool) (data : List α) (nr pos : Nat)
    (hl : nr ≤ data.length) (hp : pos < nr) :
    (min_heapifyC less data nr pos).1 = min_heapify less data nr pos ∧
    (min_heapifyC less data nr pos).2.1 + depth pos = depth (dPath less data nr pos) ∧
    (min_heapifyC less data nr pos).2.2.2 + depth pos =
      depth (heapifyDest less data nr pos) ∧
    (min_heapify less data nr pos).getD (heapifyDest less data nr pos) default =
      data.getD pos default ∧
    (∀ c, Anc pos c → Anc c (heapifyDest less data nr pos) → c ≠ pos →
      (min_heapify less data nr pos).getD (hpar c) default = data.getD c default) := by
  obtain ⟨_, _, _, b4, _⟩ := heapifyPath_bounds less data nr pos hp
  obtain ⟨_, v2, v1, _, _⟩ := min_heapify_values less data nr pos hl hp
  refine ⟨min_heapifyC_fst less data nr pos, ?_, ?_, v2, v1⟩
  · rw [(min_heapifyC_counts less data nr pos).1]
    exact dPathC_count less data nr pos
  · rw [(min_heapifyC_counts less data nr pos).2]
    exact (shiftGoC_spec pos (heapifyDest less data nr pos)
      (heapifyDest less data nr pos + 1) (heapifyDest less data nr pos) data).2
      (by omega) b4

theorem claim_C7_witness :
    (5 ≤ ([9, 1, 3, 4, 6] : List Int).length ∧ 0 < 5) ∧
    ((min_heapifyC intLess ([9, 1, 3, 4, 6] : List Int) 5 0).1 =
      min_heapify intLess ([9, 1, 3, 4, 6] : List Int) 5 0 ∧
    (min_heapifyC intLess ([9, 1, 3, 4, 6] : List Int) 5 0).2.1 + depth 0 =
      depth (dPath intLess ([9, 1, 3, 4, 6] : List Int) 5 0) ∧
    (min_heapifyC intLess ([9, 1, 3, 4, 6] : List Int) 5 0).2.2.2 + depth 0 =
      depth (heapifyDest intLess ([9, 1, 3, 4, 6] : List Int) 5 0) ∧
    (min_heapify intLess ([9, 1, 3, 4, 6] : List Int) 5 0).getD
        (heapifyDest intLess ([9, 1, 3, 4, 6] : List Int) 5 0) default =
      ([9, 1, 3, 4, 6] : List Int).getD 0 default ∧
    (∀ c, Anc 0 c → Anc c (heapifyDest intLess ([9, 1, 3, 4, 6] : List Int) 5 0) →
      c ≠ 0 →
      (min_heapify intLess ([9, 1, 3, 4, 6] : List Int) 5 0).getD (hpar c) default =
        ([9, 1, 3, 4, 6] : List Int).getD c default)) :=
  ⟨⟨by decide, by decide⟩,
    claim_C7 intLess ([9, 1, 3, 4, 6] : List Int) 5 0 (by decide) (by decide)⟩

/-- Claim C8: with capacity 6 and an empty heap, pushing 5, 3, 8, 1, 9, 2
in that order leaves 1 at index 0; one `pop` then leaves `nr = 5` with 2 at
index 0; a subsequent `pop_push 0` leaves 0 at index 0, `nr` still 5, and
the full heap property holding over the 5 live elements. -/
theorem claim_C8 :
    (pushList intLess (⟨[0, 0, 0, 0, 0, 0], 0, 6⟩ : MinHeap Int)
        [5, 3, 8, 1, 9, 2]).data.getD 0 default = 1 ∧
    (min_heap_pop intLess (pushList intLess (⟨[0, 0, 0, 0, 0, 0], 0, 6⟩ : MinHeap Int)
        [5, 3, 8, 1, 9, 2])).nr = 5 ∧
    (min_heap_pop intLess (pushList intLess (⟨[0, 0, 0, 0, 0, 0], 0, 6⟩ : MinHeap Int)
        [5, 3, 8, 1, 9, 2])).data.getD 0 default = 2 ∧
    (min_heap_pop_push intLess
      (min_heap_pop intLess (pushList intLess (⟨[0, 0, 0, 0, 0, 0], 0, 6⟩ : MinHeap Int)
        [5, 3, 8, 1, 9, 2])) 0).data.getD 0 default = 0 ∧
    (min_heap_pop_push intLess
      (min_heap_pop intLess (pushList intLess (⟨[0, 0, 0, 0, 0, 0], 0, 6⟩ : MinHeap Int)
        [5, 3, 8, 1, 9, 2])) 0).nr = 5 ∧
    heapProp intLess
      (min_heap_pop_push intLess
        (min_heap_pop intLess (pushList intLess
          (⟨[0, 0, 0, 0, 0, 0], 0, 6⟩ : MinHeap Int) [5, 3, 8, 1, 9, 2])) 0).data 5 := by
  decide

/-- Claim C9: for every well-formed state, `heapify_at(pos)` with
`pos ∈ [0, nr)` and `heapify_all` only permute the live elements: the
multiset of the first `nr` elements is preserved, `nr`, `size` and the
buffer length are unchanged, and every buffer slot at index `≥ nr` is
untouched.  No assumption on `less` is needed. -/
theorem claim_C9 (less : α → α → Bool) (h : MinHeap α) (hwf : wfH h) :
    (∀ pos, pos < h.nr →
      (min_heapify_op less h pos).nr = h.nr ∧
      (min_heapify_op less h pos).size = h.size ∧
      (min_heapify_op less h pos).data.length = h.data.length ∧
      liveM (min_heapify_op less h pos) = liveM h ∧
      (∀ j, h.nr ≤ j →
        (min_heapify_op less h pos).data.getD j default = h.data.getD j default)) ∧
    ((min_heapify_all_op less h).nr = h.nr ∧
      (min_heapify_all_op less h).size = h.size ∧
      (min_heapify_all_op less h).data.length = h.data.length ∧
      liveM (min_heapify_all_op less h) = liveM h ∧
      (∀ j, h.nr ≤ j →
        (min_heapify_all_op less h).data.getD j default = h.data.getD j default)) := by
  have hnl : h.nr ≤ h.data.length := by rw [hwf.1]; exact hwf.2
  constructor
  · intro pos hpos
    obtain ⟨v0, _, _, _, v5⟩ := min_heapify_values less h.data h.nr pos hnl hpos
    refine ⟨rfl, rfl, v0, ?_, min_heapify_frame_ge less h.data h.nr pos hnl hpos⟩
    show (↑((min_heapify less h.data h.nr pos).take h.nr) : Multiset α) =
      ↑(h.data.take h.nr)
    exact Multiset.coe_eq_coe.mpr v5
  · obtain ⟨f0, f1, f2⟩ := min_heapify_all_frame less h.data h.nr hnl
    refine ⟨rfl, rfl, f0, ?_, f2⟩
    show (↑((min_heapify_all less h.data h.nr).take h.nr) : Multiset α) =
      ↑(h.data.take h.nr)
    exact Multiset.coe_eq_coe.mpr f1

theorem claim_C9_witness :
    wfH (⟨[4, 9, 1, 7, 3], 4, 5⟩ : MinHeap Int) ∧
    ((min_heapify_op intLess (⟨[4, 9, 1, 7, 3], 4, 5⟩ : MinHeap Int) 0).nr = 4 ∧
      liveM (min_heapify_op intLess (⟨[4, 9, 1, 7, 3], 4, 5⟩ : MinHeap Int) 0) =
        liveM (⟨[4, 9, 1, 7, 3], 4, 5⟩ : MinHeap Int) ∧
      (min_heapify_op intLess (⟨[4, 9, 1, 7, 3], 4, 5⟩ : MinHeap Int) 0).data.getD 4
          default = 3 ∧
      liveM (min_heapify_all_op intLess (⟨[4, 9, 1, 7, 3], 4, 5⟩ : MinHeap Int)) =
        liveM (⟨[4, 9, 1, 7, 3], 4, 5⟩ : MinHeap Int)) := by
  refine ⟨by decide, ?_, ?_, ?_, ?_⟩
  · exact ((claim_C9 intLess (⟨[4, 9, 1, 7, 3], 4, 5⟩ : MinHeap Int) (by decide)).1 0
      (by decide)).1
  · exact ((claim_C9 intLess (⟨[4, 9, 1, 7, 3], 4, 5⟩ : MinHeap Int) (by decide)).1 0
      (by decide)).2.2.2.1
  · have := ((claim_C9 intLess (⟨[4, 9, 1, 7, 3], 4, 5⟩ : MinHeap Int) (by decide)).1 0
      (by decide)).2.2.2.2 4 (by decide)
    rw [this]; decide
  · exact ((claim_C9 intLess (⟨[4, 9, 1, 7, 3], 4, 5⟩ : MinHeap Int)
      (by decide)).2).2.2.2.1

/-- Claim C10: calling `pop_push(element)` when `nr = 0` (an unchecked
precondition violation) still overwrites buffer slot 0 with the element,
but `nr` stays 0, the instrumented call performs no comparison and no swap,
no slot other than index 0 is modified, and the (vacuous) heap property
over the 0 live elements still holds, so the written element never becomes
live. -/
theorem claim_C10 (less : α → α → Bool) (h : MinHeap α) (e : α)
    (h0 : h.nr = 0) (hlen : 0 < h.data.length) :
    (min_heap_pop_push less h e).nr = 0 ∧
    (min_heap_pop_push less h e).size = h.size ∧
    (min_heap_pop_push less h e).data = h.data.set 0 e ∧
    (min_heap_pop_push less h e).data.getD 0 default = e ∧
    (∀ j, j ≠ 0 →
      (min_heap_pop_push less h e).data.getD j default = h.data.getD j default) ∧
    (min_heapifyC less (h.data.set 0 e) h.nr 0).2.1 = 0 ∧
    (min_heapifyC less (h.data.set 0 e) h.nr 0).2.2.1 = 0 ∧
    (min_heapifyC less (h.data.set 0 e) h.nr 0).2.2.2 = 0 ∧
    heapProp less (min_heap_pop_push less h e).data h.nr := by
  have hdata : (min_heap_pop_push less h e).data = h.data.set 0 e := by
    show min_heapify less (h.data.set 0 e) h.nr 0 = h.data.set 0 e
    rw [h0, min_heapify_zero]
  refine ⟨h0 ▸ rfl, rfl, hdata, ?_, ?_, ?_, ?_, ?_, ?_⟩
  · rw [hdata, getD_set, if_pos ⟨rfl, hlen⟩]
  · intro j hj
    rw [hdata, getD_set, if_neg (fun hh => hj hh.1.symm)]
  · rw [h0]; rfl
  · rw [h0]; rfl
  · rw [h0]; rfl
  · rw [h0]; exact heapProp_zero less _

theorem claim_C10_witness :
    ((⟨[7, 9], 0, 2⟩ : MinHeap Int).nr = 0 ∧
      0 < (⟨[7, 9], 0, 2⟩ : MinHeap Int).data.length) ∧
    ((min_heap_pop_push intLess (⟨[7, 9], 0, 2⟩ : MinHeap Int) 4).nr = 0 ∧
    (min_heap_pop_push intLess (⟨[7, 9], 0, 2⟩ : MinHeap Int) 4).size = 2 ∧
    (min_heap_pop_push intLess (⟨[7, 9], 0, 2⟩ : MinHeap Int) 4).data =
      ([7, 9] : List Int).set 0 4 ∧
    (min_heap_pop_push intLess (⟨[7, 9], 0, 2⟩ : MinHeap Int) 4).data.getD 0 default
      = 4 ∧
    (∀ j, j ≠ 0 →
      (min_heap_pop_push intLess (⟨[7, 9], 0, 2⟩ : MinHeap Int) 4).data.getD j default
        = ([7, 9] : List Int).getD j default) ∧
    (min_heapifyC intLess (([7, 9] : List Int).set 0 4) 0 0).2.1 = 0 ∧
    (min_heapifyC intLess (([7, 9] : List Int).set 0 4) 0 0).2.2.1 = 0 ∧
    (min_heapifyC intLess (([7, 9] : List Int).set 0 4) 0 0).2.2.2 = 0 ∧
    heapProp intLess (min_heap_pop_push intLess (⟨[7, 9], 0, 2⟩ : MinHeap Int) 4).data 0) :=
  ⟨⟨by decide, by decide⟩,
    claim_C10 intLess (⟨[7, 9], 0, 2⟩ : MinHeap Int) 4 (by decide) (by decide)⟩

end Claims

end MinHeapVerif
